import Mathlib

/-!
# StateOS: stream buffer (osstreambuffer.c) and message list (oslist.c)

A shallow embedding of the two kernel objects and theorems about them.

Conventions of the embedding

* `unsigned` is 32 bits wide: every `unsigned` sum that can wrap is written
  with an explicit `% UINT_MOD`, every difference with `u_sub`.
* A `char *` is the memory region it points to, a function from the offset
  to the byte stored there; `*data++ = c` updates offset `p` and moves on
  to `p + 1`.
* The critical section (`port_sys_lock` / `sys_lock`) makes every operation
  atomic; an operation is therefore a function from the state before the
  call to the state after it.
* A task that is woken leaves the wait queue; the operations return the
  tasks they woke, in wake order, with the wake reason in `event`.
* The tail scan of `lst_give` is the only loop that need not end; it runs on
  fuel, and the theorems give the fuel that suffices.
-/

/-! ## Definitions -/

/-- Number of values of the C type `unsigned` (32 bits). -/
def UINT_MOD : Nat := 4294967296

/-- The difference `a - b` of two values of the type `unsigned`: it wraps
around when `b` exceeds `a`. -/
def u_sub (a b : Nat) : Nat :=
  if b ≤ a then a - b else UINT_MOD - (b - a)

/-- A C `char`. -/
abbrev Byte := Fin 256

/-- The memory a `char *` points to, indexed by the offset from the pointer. -/
abbrev Mem := Nat → Byte

/-- Modelled from the spec: the reason codes E_SUCCESS, E_TIMEOUT and
E_STOPPED (three distinct `unsigned` constants declared in a kernel header). -/
inductive Event where
  | E_SUCCESS
  | E_TIMEOUT
  | E_STOPPED
deriving DecidableEq, Repr

open Event

/-- Modelled from the spec: the part of the task record `tsk_t` used by the
two objects. `stm_data` is the memory behind `tmp.stm.data` (the members
`in` and `out` of the union share the pointer), `stm_size` is `tmp.stm.size`,
`lst_data` is the `void *` cell behind `tmp.lst.data`, and `event` is the
reason the suspended call returns once the task is woken. -/
structure tsk_t where
  id : Nat
  event : Event
  stm_data : Mem
  stm_size : Nat
  lst_data : Nat

/-- Modelled from the spec: `core_tsk_wakeup(tsk, event)` wakes the task with
the given reason. The task also leaves its wait queue; the loops below drop it
from the queue they iterate over. -/
def core_tsk_wakeup (tsk : tsk_t) (event : Event) : tsk_t :=
  { tsk with event := event }

/-- Modelled from the spec: `core_all_wakeup(queue, event)` wakes every task
of the queue with the given reason, the longest-waiting one first; the queue
is empty afterwards. The result is the list of woken tasks. -/
def core_all_wakeup (queue : List tsk_t) (event : Event) : List tsk_t :=
  queue.map (fun t => core_tsk_wakeup t event)

/-- Modelled from the spec: `core_tsk_waitFor(queue, delay)` suspends the
current task at the tail of the (FIFO) wait queue until it is woken or the
relative deadline elapses; the deadline is kept by the scheduler. -/
def core_tsk_waitFor (queue : List tsk_t) (cur : tsk_t) (_delay : Nat) : List tsk_t :=
  queue ++ [cur]

/-- Modelled from the spec: `core_tsk_waitUntil(queue, time)` suspends the
current task at the tail of the (FIFO) wait queue until it is woken or the
absolute deadline elapses; the deadline is kept by the scheduler. -/
def core_tsk_waitUntil (queue : List tsk_t) (cur : tsk_t) (_time : Nat) : List tsk_t :=
  queue ++ [cur]

/-- The stream buffer object `stm_t`. `res` is the resource marker (0 when
the object is not heap-created) and `data` the byte array of `limit` bytes. -/
structure stm_t where
  queue : List tsk_t
  res : Nat
  count : Nat
  limit : Nat
  first : Nat
  next : Nat
  data : Mem

/-- The source function `stm_init`: `memset` to zero, then `limit` and `data`. -/
def stm_init (limit : Nat) (data : Mem) : stm_t :=
  { queue := [], res := 0, count := 0, limit := limit, first := 0, next := 0, data := data }

/-- The source function `stm_kill`: the woken tasks and the state afterwards. -/
def stm_kill (stm : stm_t) : stm_t × List tsk_t :=
  ({ stm with count := 0, first := 0, next := 0, queue := [] },
   core_all_wakeup stm.queue E_STOPPED)

/-- The source function `priv_stm_count`. -/
def priv_stm_count (stm : stm_t) : Nat :=
  stm.count

/-- The source function `priv_stm_space`; `limit - count` is an `unsigned`
subtraction. -/
def priv_stm_space (stm : stm_t) : Nat :=
  if stm.count = 0 then stm.limit
  else if stm.queue.isEmpty then u_sub stm.limit stm.count
  else 0

/-- The source function `priv_stm_getc`. -/
def priv_stm_getc (stm : stm_t) : Byte × stm_t :=
  let i := stm.first
  let c := stm.data i
  let i := (i + 1) % UINT_MOD
  (c, { stm with first := if i < stm.limit then i else 0,
                 count := u_sub stm.count 1 })

/-- The source function `priv_stm_putc`. -/
def priv_stm_putc (stm : stm_t) (c : Byte) : stm_t :=
  let i := stm.next
  let data := Function.update stm.data i c
  let i := (i + 1) % UINT_MOD
  { stm with data := data,
             next := if i < stm.limit then i else 0,
             count := (stm.count + 1) % UINT_MOD }

/-- The source function `priv_stm_get`: `while (size--) *data++ = getc`. The
pointer `data` is the region `data` at offset `p`. -/
def priv_stm_get (stm : stm_t) (data : Mem) (p : Nat) : Nat → stm_t × Mem
  | 0 => (stm, data)
  | size + 1 =>
    let r := priv_stm_getc stm
    priv_stm_get r.2 (Function.update data p r.1) (p + 1) size

/-- The source function `priv_stm_put`: `while (size--) putc(*data++)`. -/
def priv_stm_put (stm : stm_t) (data : Mem) (p : Nat) : Nat → stm_t
  | 0 => stm
  | size + 1 => priv_stm_put (priv_stm_putc stm (data p)) data (p + 1) size

/-- The loop of `priv_stm_getUpdate` over the wait queue `queue`; the queue
stored in the result is what is left of it. `count + size` is an `unsigned`
addition. -/
def priv_stm_getUpdate_loop : List tsk_t → stm_t → stm_t × List tsk_t
  | [], stm => ({ stm with queue := [] }, [])
  | t :: queue, stm =>
    if (stm.count + t.stm_size) % UINT_MOD ≤ stm.limit then
      let r := priv_stm_getUpdate_loop queue (priv_stm_put stm t.stm_data 0 t.stm_size)
      (r.1, core_tsk_wakeup t E_SUCCESS :: r.2)
    else
      ({ stm with queue := t :: queue }, [])

/-- The source function `priv_stm_getUpdate` (the post-read drain): the state
afterwards and the tasks woken. -/
def priv_stm_getUpdate (stm : stm_t) : stm_t × List tsk_t :=
  priv_stm_getUpdate_loop stm.queue stm

/-- The loop of `priv_stm_putUpdate` over the wait queue `queue`. -/
def priv_stm_putUpdate_loop : List tsk_t → stm_t → stm_t × List tsk_t
  | [], stm => ({ stm with queue := [] }, [])
  | t :: queue, stm =>
    if stm.count > 0 then
      if t.stm_size ≤ stm.count then
        let g := priv_stm_get stm t.stm_data 0 t.stm_size
        let r := priv_stm_putUpdate_loop queue g.1
        (r.1, core_tsk_wakeup { t with stm_data := g.2 } E_SUCCESS :: r.2)
      else
        let r := priv_stm_putUpdate_loop queue stm
        (r.1, core_tsk_wakeup t E_TIMEOUT :: r.2)
    else
      ({ stm with queue := t :: queue }, [])

/-- The source function `priv_stm_putUpdate` (the post-write drain). -/
def priv_stm_putUpdate (stm : stm_t) : stm_t × List tsk_t :=
  priv_stm_putUpdate_loop stm.queue stm

/-- What a stream buffer operation leaves behind: the returned event, the
object, the caller's buffer and the tasks woken by the call. -/
structure stm_result where
  event : Event
  stm : stm_t
  data : Mem
  woken : List tsk_t

/-- The source function `stm_take`. -/
def stm_take (stm : stm_t) (data : Mem) (size : Nat) : stm_result :=
  if size > 0 then
    if stm.count > 0 then
      if size ≤ priv_stm_count stm then
        let g := priv_stm_get stm data 0 size
        let u := priv_stm_getUpdate g.1
        { event := E_SUCCESS, stm := u.1, data := g.2, woken := u.2 }
      else { event := E_TIMEOUT, stm := stm, data := data, woken := [] }
    else { event := E_TIMEOUT, stm := stm, data := data, woken := [] }
  else { event := E_TIMEOUT, stm := stm, data := data, woken := [] }

/-- The source function `stm_give`. -/
def stm_give (stm : stm_t) (data : Mem) (size : Nat) : stm_result :=
  if size > 0 ∧ size ≤ stm.limit then
    if size ≤ priv_stm_space stm then
      let p := priv_stm_put stm data 0 size
      let u := priv_stm_putUpdate p
      { event := E_SUCCESS, stm := u.1, data := data, woken := u.2 }
    else { event := E_TIMEOUT, stm := stm, data := data, woken := [] }
  else { event := E_TIMEOUT, stm := stm, data := data, woken := [] }

/-- How the protected part of a blocking stream buffer call ends: the call
returns at once, or the caller is suspended on the wait queue and returns
later with the reason it is woken with. -/
inductive stm_blocking where
  | returned (r : stm_result)
  | suspended (stm : stm_t)

/-- The object a blocking call leaves behind. -/
def stm_blocking.stm : stm_blocking → stm_t
  | .returned r => r.stm
  | .suspended stm => stm

/-- Whether a blocking call suspended its caller. -/
def stm_blocking.is_suspended : stm_blocking → Bool
  | .returned _ => false
  | .suspended _ => true

/-- The source function `priv_stm_wait`; `cur` is `System.cur` and `wait` the
suspend call. -/
def priv_stm_wait (stm : stm_t) (cur : tsk_t) (data : Mem) (size : Nat) (time : Nat)
    (wait : List tsk_t → tsk_t → Nat → List tsk_t) : stm_blocking :=
  if size > 0 then
    if stm.count > 0 then
      if size ≤ priv_stm_count stm then
        let g := priv_stm_get stm data 0 size
        let u := priv_stm_getUpdate g.1
        .returned { event := E_SUCCESS, stm := u.1, data := g.2, woken := u.2 }
      else .returned { event := E_TIMEOUT, stm := stm, data := data, woken := [] }
    else
      .suspended { stm with queue := wait stm.queue { cur with stm_data := data, stm_size := size } time }
  else .returned { event := E_TIMEOUT, stm := stm, data := data, woken := [] }

/-- The source function `stm_waitUntil`. -/
def stm_waitUntil (stm : stm_t) (cur : tsk_t) (data : Mem) (size : Nat) (time : Nat) :
    stm_blocking :=
  priv_stm_wait stm cur data size time core_tsk_waitUntil

/-- The source function `stm_waitFor`. -/
def stm_waitFor (stm : stm_t) (cur : tsk_t) (data : Mem) (size : Nat) (delay : Nat) :
    stm_blocking :=
  priv_stm_wait stm cur data size delay core_tsk_waitFor

/-- The source function `priv_stm_send`. -/
def priv_stm_send (stm : stm_t) (cur : tsk_t) (data : Mem) (size : Nat) (time : Nat)
    (wait : List tsk_t → tsk_t → Nat → List tsk_t) : stm_blocking :=
  if size > 0 ∧ size ≤ stm.limit then
    if size ≤ priv_stm_space stm then
      let p := priv_stm_put stm data 0 size
      let u := priv_stm_putUpdate p
      .returned { event := E_SUCCESS, stm := u.1, data := data, woken := u.2 }
    else
      .suspended { stm with queue := wait stm.queue { cur with stm_data := data, stm_size := size } time }
  else .returned { event := E_TIMEOUT, stm := stm, data := data, woken := [] }

/-- The source function `stm_sendUntil`. -/
def stm_sendUntil (stm : stm_t) (cur : tsk_t) (data : Mem) (size : Nat) (time : Nat) :
    stm_blocking :=
  priv_stm_send stm cur data size time core_tsk_waitUntil

/-- The source function `stm_sendFor`. -/
def stm_sendFor (stm : stm_t) (cur : tsk_t) (data : Mem) (size : Nat) (delay : Nat) :
    stm_blocking :=
  priv_stm_send stm cur data size delay core_tsk_waitFor

/-- The source function `stm_count`. -/
def stm_count (stm : stm_t) : Nat × stm_t :=
  (priv_stm_count stm, stm)

/-- The source function `stm_space`. -/
def stm_space (stm : stm_t) : Nat × stm_t :=
  (priv_stm_space stm, stm)

/-- The memory holding the bytes of `s` from offset 0 on. -/
def mem_of (s : List Byte) : Mem :=
  fun i => s.getD i 0

/-- The first `n` bytes of a memory region. -/
def mem_read (m : Mem) (n : Nat) : List Byte :=
  (List.range n).map m

/-- The buffered bytes, oldest first: `data[first]`, `data[(first+1) mod limit]`, ... -/
def stm_contents (stm : stm_t) : List Byte :=
  (List.range stm.count).map (fun k => stm.data ((stm.first + k) % stm.limit))

/-- The consistency predicate of the stream buffer. -/
def stm_consistent (stm : stm_t) : Prop :=
  stm.count ≤ stm.limit ∧ stm.first < stm.limit ∧ stm.next < stm.limit ∧
    stm.next = (stm.first + stm.count) % stm.limit

/-- Whether the consistency predicate holds can be computed. -/
instance stm_consistent_decidable (stm : stm_t) : Decidable (stm_consistent stm) := by
  unfold stm_consistent
  infer_instance

/-! ### Message list -/

/-- Modelled from the spec: `core_one_wakeup(queue, event)` wakes the
longest-waiting task of the queue with the given reason and returns it, or
returns null when no task waits. The second component is the queue afterwards. -/
def core_one_wakeup (queue : List tsk_t) (event : Event) : Option tsk_t × List tsk_t :=
  match queue with
  | [] => (none, [])
  | tsk :: rest => (some (core_tsk_wakeup tsk event), rest)

/-- The message list object `lst_t` and the memory its chain lives in. A
pointer to a `que_t` is an address counted in units of `que_t`, 0 being the
null pointer; `head` is `head.next`, and `link a` is the member `next` of the
`que_t` at address `a`, the hidden link word in front of the data block at
address `a + 1`. -/
structure lst_t where
  queue : List tsk_t
  res : Nat
  head : Nat
  link : Nat → Nat

/-- The source function `lst_init`; the memory outside the object is not touched. -/
def lst_init (link : Nat → Nat) : lst_t :=
  { queue := [], res := 0, head := 0, link := link }

/-- The source function `lst_kill`: the object afterwards and the tasks woken. -/
def lst_kill (lst : lst_t) : lst_t × List tsk_t :=
  ({ lst with queue := [] }, core_all_wakeup lst.queue E_STOPPED)

/-- What a message list receive leaves behind: the returned event, the object
and the content of the caller's cell `*data`. -/
structure lst_result where
  event : Event
  lst : lst_t
  data : Nat

/-- The source function `lst_take`; `data` is the content of `*data` before
the call. -/
def lst_take (lst : lst_t) (data : Nat) : lst_result :=
  if lst.head ≠ 0 then
    { event := E_SUCCESS, lst := { lst with head := lst.link lst.head }, data := lst.head + 1 }
  else
    { event := E_TIMEOUT, lst := lst, data := data }

/-- How the protected part of a blocking receive ends: it returns at once, or
the caller is suspended on the wait queue. -/
inductive lst_blocking where
  | returned (r : lst_result)
  | suspended (lst : lst_t)

/-- The object a blocking receive leaves behind. -/
def lst_blocking.lst : lst_blocking → lst_t
  | .returned r => r.lst
  | .suspended lst => lst

/-- The source function `priv_lst_wait`; `cur` is `System.cur` and `wait` the
suspend call. -/
def priv_lst_wait (lst : lst_t) (cur : tsk_t) (data : Nat) (time : Nat)
    (wait : List tsk_t → tsk_t → Nat → List tsk_t) : lst_blocking :=
  if lst.head ≠ 0 then
    .returned { event := E_SUCCESS, lst := { lst with head := lst.link lst.head },
                data := lst.head + 1 }
  else
    .suspended { lst with queue := wait lst.queue { cur with lst_data := data } time }

/-- The source function `lst_waitFor`. -/
def lst_waitFor (lst : lst_t) (cur : tsk_t) (data : Nat) (delay : Nat) : lst_blocking :=
  priv_lst_wait lst cur data delay core_tsk_waitFor

/-- The source function `lst_waitUntil`. -/
def lst_waitUntil (lst : lst_t) (cur : tsk_t) (data : Nat) (time : Nat) : lst_blocking :=
  priv_lst_wait lst cur data time core_tsk_waitUntil

/-- A value of the variable `ptr` of `lst_give`: the address of the `que_t`
embedded in the object, or the address of a `que_t` in memory. -/
inductive que_ptr where
  | head
  | node (a : Nat)
deriving DecidableEq, Repr

/-- The expression `ptr->next`. -/
def que_next (lst : lst_t) : que_ptr → Nat
  | .head => lst.head
  | .node a => lst.link a

/-- The assignment `ptr->next = v`. -/
def que_set_next (lst : lst_t) (ptr : que_ptr) (v : Nat) : lst_t :=
  match ptr with
  | .head => { lst with head := v }
  | .node a => { lst with link := Function.update lst.link a v }

/-- The tail scan `for (ptr = &lst->head; ptr->next; ptr = ptr->next);` from
`ptr` on: every test of `ptr->next` uses one unit of fuel, and the result is
the final `ptr`, or `none` when the fuel runs out before the scan ends. -/
def lst_scan (lst : lst_t) : Nat → que_ptr → Option que_ptr
  | 0, _ => none
  | fuel + 1, ptr =>
    if que_next lst ptr ≠ 0 then lst_scan lst fuel (.node (que_next lst ptr)) else some ptr

/-- The source function `lst_give`: the object afterwards and the tasks woken,
or `none` when the tail scan does not end within `fuel` tests. -/
def lst_give (fuel : Nat) (lst : lst_t) (data : Nat) : Option (lst_t × List tsk_t) :=
  match core_one_wakeup lst.queue E_SUCCESS with
  | (some tsk, queue) => some ({ lst with queue := queue }, [{ tsk with lst_data := data }])
  | (none, _) =>
    match lst_scan lst fuel .head with
    | none => none
    | some ptr =>
      let lst1 := que_set_next lst ptr (data - 1)
      let lst2 := que_set_next lst1 (.node (que_next lst1 ptr)) 0
      some (lst2, [])

/-- The chain that starts at address `a` visits exactly the nodes `c`, in this
order, and then reaches the null pointer. -/
def is_chain (link : Nat → Nat) : Nat → List Nat → Prop
  | a, [] => a = 0
  | a, n :: c => a = n ∧ n ≠ 0 ∧ is_chain link (link n) c

/-- The chain of the message list is the acyclic, null-terminated sequence of
nodes `c`. -/
def lst_chain (lst : lst_t) (c : List Nat) : Prop :=
  is_chain lst.link lst.head c ∧ c.Nodup

/-- A run of `lst_give` calls with the data blocks `ds`, in this order. -/
def lst_give_all (fuel : Nat) : lst_t → List Nat → Option lst_t
  | lst, [] => some lst
  | lst, d :: ds =>
    match lst_give fuel lst d with
    | none => none
    | some r => lst_give_all fuel r.1 ds

/-- A run of `n` calls of `lst_take`: the event and the block returned by each
call, and the object afterwards. -/
def lst_take_all : Nat → lst_t → List (Event × Nat) × lst_t
  | 0, lst => ([], lst)
  | n + 1, lst =>
    let r := lst_take lst 0
    let rest := lst_take_all n r.lst
    ((r.event, r.data) :: rest.1, rest.2)

/-- The states of a message list that can be reached from `lst_init` by the
operations of the object and by waiters timing out. -/
inductive lst_reachable : lst_t → Prop where
  | init (link : Nat → Nat) : lst_reachable (lst_init link)
  | take (lst : lst_t) (data : Nat) :
      lst_reachable lst → lst_reachable (lst_take lst data).lst
  | waitFor (lst : lst_t) (cur : tsk_t) (data delay : Nat) :
      lst_reachable lst → lst_reachable (lst_waitFor lst cur data delay).lst
  | waitUntil (lst : lst_t) (cur : tsk_t) (data time : Nat) :
      lst_reachable lst → lst_reachable (lst_waitUntil lst cur data time).lst
  | give (lst : lst_t) (fuel data : Nat) (r : lst_t × List tsk_t) :
      lst_reachable lst → lst_give fuel lst data = some r → lst_reachable r.1
  | kill (lst : lst_t) : lst_reachable lst → lst_reachable (lst_kill lst).1
  | timeout (lst : lst_t) (i : Nat) :
      lst_reachable lst → lst_reachable { lst with queue := lst.queue.eraseIdx i }

/-- A capacity-4 buffer holding the two bytes 7, 8 with one task queued. -/
def stm_demo_pending : stm_t :=
  { queue := [{ id := 1, event := E_TIMEOUT, stm_data := mem_of [9], stm_size := 3, lst_data := 0 }],
    res := 0, count := 2, limit := 4, first := 0, next := 2, data := mem_of [7, 8] }

/-- An empty capacity-4 buffer with one consumer waiting for 2 bytes. -/
def stm_demo_waiting : stm_t :=
  { queue := [{ id := 1, event := E_TIMEOUT, stm_data := mem_of [], stm_size := 2, lst_data := 0 }],
    res := 0, count := 0, limit := 4, first := 0, next := 0, data := mem_of [] }

/-- An empty capacity-8 buffer whose indices sit at 6, so that four bytes wrap. -/
def stm_demo_wrap : stm_t :=
  { stm_init 8 (mem_of []) with first := 6, next := 6 }

/-- The task A of the deferred-consumer scenario. -/
def tsk_demo_A : tsk_t :=
  { id := 1, event := E_STOPPED, stm_data := mem_of [], stm_size := 0, lst_data := 0 }

/-- The object of the deferred-consumer scenario once A is suspended in
`stm_waitFor(size = 3)` on the empty capacity-4 buffer. -/
def stm_demo_deferred : stm_t :=
  (stm_waitFor (stm_init 4 (mem_of [])) tsk_demo_A (mem_of []) 3 10).stm

/-- A full buffer of the largest capacity an `unsigned` can hold, with one
producer suspended in `stm_sendFor(size = 2)`. -/
def stm_demo_huge : stm_t :=
  { queue := [{ id := 1, event := E_STOPPED, stm_data := mem_of [1, 2], stm_size := 2,
                lst_data := 0 }],
    res := 0, count := 4294967295, limit := 4294967295, first := 0, next := 0,
    data := mem_of [] }

/-- A task suspended on a message list. -/
def tsk_demo_B (id : Nat) : tsk_t :=
  { id := id, event := E_TIMEOUT, stm_data := mem_of [], stm_size := 0, lst_data := 0 }

/-- The link words of a memory in which node 3 is followed by node 7, and 7
by nothing. -/
def link_demo : Nat → Nat :=
  fun a => if a = 3 then 7 else 0

/-- A message list whose chain holds the blocks 4 and 8 (nodes 3 and 7). -/
def lst_demo_two : lst_t :=
  { queue := [], res := 0, head := 3, link := link_demo }

/-- A message list with an empty chain and the receivers 1 and 2 suspended,
reached from `lst_init` by two blocking receives. -/
def lst_demo_blocked : lst_t :=
  (lst_waitUntil (lst_waitFor (lst_init link_demo) (tsk_demo_B 1) 0 10).lst (tsk_demo_B 2) 0 99).lst

/-- The consumer A of the asymmetric-drain scenario, suspended in
`stm_waitFor(size = 3)`. -/
def tsk_demo_asym_A : tsk_t :=
  { id := 1, event := E_STOPPED, stm_data := mem_of [5, 5, 5], stm_size := 3, lst_data := 0 }

/-- The consumer B of the asymmetric-drain scenario, suspended in
`stm_waitFor(size = 1)`. -/
def tsk_demo_asym_B : tsk_t :=
  { id := 2, event := E_STOPPED, stm_data := mem_of [], stm_size := 1, lst_data := 0 }

/-- The object of the asymmetric-drain scenario: capacity 4, the one byte 7
buffered, A queued first and B second. -/
def stm_demo_asym : stm_t :=
  { queue := [tsk_demo_asym_A, tsk_demo_asym_B],
    res := 0, count := 1, limit := 4, first := 0, next := 1, data := mem_of [7] }

/-- The buffer of the asymmetric-drain scenario with a second byte 9 written,
the state in which the post-write drain would run. -/
def stm_demo_asym_two : stm_t :=
  { queue := [tsk_demo_asym_A, tsk_demo_asym_B],
    res := 0, count := 2, limit := 4, first := 0, next := 2, data := mem_of [7, 9] }

/-- A capacity-4 buffer holding the one byte 7, nobody waiting. -/
def stm_demo_one : stm_t :=
  { queue := [], res := 0, count := 1, limit := 4, first := 0, next := 1, data := mem_of [7] }

/-! ### The objects in the words of the specification -/

/-- The bounded FIFO byte queue of the specification: giving the bytes `s`
to a queue of capacity `limit` holding `contents` succeeds iff `s` is not
empty and fits in the free space, and then appends `s`. -/
def fifo_give (limit : Nat) (contents s : List Byte) : Option (List Byte) :=
  if 0 < s.length ∧ s.length ≤ limit - contents.length then some (contents ++ s) else none

/-- The bounded FIFO byte queue of the specification: taking `n` bytes
succeeds iff `0 < n` and `n` bytes are buffered, and then delivers the first
`n` bytes and keeps the others. -/
def fifo_take (contents : List Byte) (n : Nat) : Option (List Byte × List Byte) :=
  if 0 < n ∧ n ≤ contents.length then some (contents.take n, contents.drop n) else none

/-- The memory `m` with the bytes `bs` written from offset 0 on. -/
def mem_write (m : Mem) (bs : List Byte) : Mem :=
  fun i => if i < bs.length then bs.getD i 0 else m i

/-- The post-write drain in the words of the specification, on the buffered
bytes `b` (oldest first) and the queued consumers, front first: while bytes
are buffered, a consumer whose size fits receives its `size` oldest bytes and
is woken with Success, any other consumer receives nothing and is woken with
Timeout, and the pass goes on to the next one. The result is the bytes left,
the consumers left and the consumers woken. -/
def spec_post_write_drain : List tsk_t → List Byte → List Byte × List tsk_t × List tsk_t
  | [], b => (b, [], [])
  | t :: q, b =>
    if 0 < b.length then
      if t.stm_size ≤ b.length then
        let r := spec_post_write_drain q (b.drop t.stm_size)
        (r.1, r.2.1,
          { t with event := E_SUCCESS,
                   stm_data := mem_write t.stm_data (b.take t.stm_size) } :: r.2.2)
      else
        let r := spec_post_write_drain q b
        (r.1, r.2.1, { t with event := E_TIMEOUT } :: r.2.2)
    else (b, t :: q, [])

/-- A buffer of capacity 4 holding the bytes 7, 9, 11 from index 2 on (so the
third byte sits at index 0), with three consumers queued that ask for 2, 3
and 1 bytes. -/
def stm_demo_drain : stm_t :=
  { queue := [{ id := 1, event := E_STOPPED, stm_data := mem_of [], stm_size := 2, lst_data := 0 },
              { id := 2, event := E_STOPPED, stm_data := mem_of [], stm_size := 3, lst_data := 0 },
              { id := 3, event := E_STOPPED, stm_data := mem_of [], stm_size := 1, lst_data := 0 }],
    res := 0, count := 3, limit := 4, first := 2, next := 1,
    data := fun i => if i = 2 then 7 else if i = 3 then 9 else if i = 0 then 11 else 0 }

/-- The post-read drain in the words of the specification, on the buffered
bytes `b` and the queued producers, front first: while the front producer's
pending bytes fit (`count + size ≤ limit`), they are appended and the
producer is woken with Success; the pass stops at the first producer that
would overflow. The result is the bytes buffered, the producers left and the
producers woken. -/
def spec_post_read_drain (limit : Nat) :
    List tsk_t → List Byte → List Byte × List tsk_t × List tsk_t
  | [], b => (b, [], [])
  | t :: q, b =>
    if b.length + t.stm_size ≤ limit then
      let r := spec_post_read_drain limit q (b ++ mem_read t.stm_data t.stm_size)
      (r.1, r.2.1, { t with event := E_SUCCESS } :: r.2.2)
    else (b, t :: q, [])

/-- The full buffer of capacity 4294967295 after `stm_take` has read one
byte: 4294967294 bytes are buffered, one is free, and the producer asking for
2 bytes is still queued. -/
def stm_demo_huge_read : stm_t :=
  (priv_stm_get stm_demo_huge (mem_of []) 0 1).1

/-- Which blocking call suspended a queued task: `stm_waitFor` /
`stm_waitUntil` (a consumer) or `stm_sendFor` / `stm_sendUntil` (a producer).
The task record has no such field; the kinds of the queued tasks are kept
beside the object, in queue order. -/
inductive stm_kind where
  | consumer
  | producer
deriving DecidableEq, Repr

/-- The kinds of the queued tasks after a blocking call made by a task of
kind `kind`: a suspended caller joins the tail, woken tasks leave the front. -/
def stm_blocking.kinds (b : stm_blocking) (kinds : List stm_kind) (kind : stm_kind) :
    List stm_kind :=
  match b with
  | .returned r => kinds.drop r.woken.length
  | .suspended _ => kinds ++ [kind]

/-- The states of a stream buffer, with the kinds of its queued tasks, that
can be reached from `stm_init` by the operations of the object and by waiters
timing out. -/
inductive stm_reachable : stm_t → List stm_kind → Prop where
  | init (limit : Nat) (data : Mem) : 0 < limit → stm_reachable (stm_init limit data) []
  | take (stm : stm_t) (kinds : List stm_kind) (data : Mem) (size : Nat) :
      stm_reachable stm kinds →
      stm_reachable (stm_take stm data size).stm
        (kinds.drop (stm_take stm data size).woken.length)
  | give (stm : stm_t) (kinds : List stm_kind) (data : Mem) (size : Nat) :
      stm_reachable stm kinds →
      stm_reachable (stm_give stm data size).stm
        (kinds.drop (stm_give stm data size).woken.length)
  | waitFor (stm : stm_t) (kinds : List stm_kind) (cur : tsk_t) (data : Mem) (size delay : Nat) :
      stm_reachable stm kinds →
      stm_reachable (stm_waitFor stm cur data size delay).stm
        ((stm_waitFor stm cur data size delay).kinds kinds .consumer)
  | waitUntil (stm : stm_t) (kinds : List stm_kind) (cur : tsk_t) (data : Mem) (size time : Nat) :
      stm_reachable stm kinds →
      stm_reachable (stm_waitUntil stm cur data size time).stm
        ((stm_waitUntil stm cur data size time).kinds kinds .consumer)
  | sendFor (stm : stm_t) (kinds : List stm_kind) (cur : tsk_t) (data : Mem) (size delay : Nat) :
      stm_reachable stm kinds →
      stm_reachable (stm_sendFor stm cur data size delay).stm
        ((stm_sendFor stm cur data size delay).kinds kinds .producer)
  | sendUntil (stm : stm_t) (kinds : List stm_kind) (cur : tsk_t) (data : Mem) (size time : Nat) :
      stm_reachable stm kinds →
      stm_reachable (stm_sendUntil stm cur data size time).stm
        ((stm_sendUntil stm cur data size time).kinds kinds .producer)
  | kill (stm : stm_t) (kinds : List stm_kind) :
      stm_reachable stm kinds → stm_reachable (stm_kill stm).1 []
  | timeout (stm : stm_t) (kinds : List stm_kind) (i : Nat) :
      stm_reachable stm kinds →
      stm_reachable { stm with queue := stm.queue.eraseIdx i } (kinds.eraseIdx i)

/-- The wait queue holds tasks of one kind only: consumers only while nothing
is buffered, producers only while something is, each producer with a request
of `0 < size ≤ limit`. -/
def stm_homogeneous (stm : stm_t) (kinds : List stm_kind) : Prop :=
  kinds.length = stm.queue.length ∧
  (stm.count = 0 → ∀ k ∈ kinds, k = stm_kind.consumer) ∧
  (stm.count ≠ 0 → (∀ k ∈ kinds, k = stm_kind.producer) ∧
    ∀ t ∈ stm.queue, 0 < t.stm_size ∧ t.stm_size ≤ stm.limit)

/-! ## Theorems -/

/-! ### Arithmetic of the circular indices -/

theorem mod_index_inj {n a b : Nat} (hab : a ≤ b) (hlt : b - a < n)
    (h : a % n = b % n) : a = b := by
  have h1 : a ≡ b [MOD n] := h
  have h2 : n ∣ b - a := (Nat.modEq_iff_dvd' hab).mp h1
  have h3 : b - a = 0 := Nat.eq_zero_of_dvd_of_lt h2 hlt
  omega

theorem index_step {i limit : Nat} (hi : i < limit) (hl : limit < UINT_MOD) :
    (if (i + 1) % UINT_MOD < limit then (i + 1) % UINT_MOD else 0) = (i + 1) % limit := by
  have h1 : (i + 1) % UINT_MOD = i + 1 := Nat.mod_eq_of_lt (by omega)
  rw [h1]
  by_cases h : i + 1 < limit
  · rw [if_pos h, Nat.mod_eq_of_lt h]
  · have h2 : i + 1 = limit := by omega
    rw [if_neg h, h2, Nat.mod_self]

/-! ### One byte in, one byte out -/

theorem priv_stm_putc_fields (stm : stm_t) (c : Byte) :
    (priv_stm_putc stm c).queue = stm.queue ∧ (priv_stm_putc stm c).res = stm.res ∧
    (priv_stm_putc stm c).limit = stm.limit ∧ (priv_stm_putc stm c).first = stm.first := by
  simp [priv_stm_putc]

theorem priv_stm_getc_fields (stm : stm_t) :
    (priv_stm_getc stm).2.queue = stm.queue ∧ (priv_stm_getc stm).2.res = stm.res ∧
    (priv_stm_getc stm).2.limit = stm.limit ∧ (priv_stm_getc stm).2.next = stm.next ∧
    (priv_stm_getc stm).2.data = stm.data := by
  simp [priv_stm_getc]

theorem priv_stm_putc_count {stm : stm_t} (c : Byte) (hl : stm.limit < UINT_MOD)
    (hc : stm.count < stm.limit) : (priv_stm_putc stm c).count = stm.count + 1 := by
  simp only [priv_stm_putc]
  exact Nat.mod_eq_of_lt (by omega)

theorem priv_stm_getc_count {stm : stm_t}
    (hc : 0 < stm.count) : (priv_stm_getc stm).2.count = stm.count - 1 := by
  simp only [priv_stm_getc, u_sub]
  rw [if_pos (by omega)]

theorem priv_stm_putc_consistent {stm : stm_t} (c : Byte) (hw : stm_consistent stm)
    (hl : stm.limit < UINT_MOD) (hc : stm.count < stm.limit) :
    stm_consistent (priv_stm_putc stm c) := by
  obtain ⟨h1, h2, h3, h4⟩ := hw
  have hcount := priv_stm_putc_count c hl hc
  have hnext : (priv_stm_putc stm c).next = (stm.next + 1) % stm.limit := by
    simp only [priv_stm_putc]
    exact index_step h3 hl
  obtain ⟨-, -, hlimit, hfirst⟩ := priv_stm_putc_fields stm c
  refine ⟨?_, ?_, ?_, ?_⟩
  · rw [hcount, hlimit]; omega
  · rw [hfirst, hlimit]; exact h2
  · rw [hnext, hlimit]; exact Nat.mod_lt _ (by omega)
  · rw [hnext, hlimit, hfirst, hcount, h4, ← Nat.add_assoc]
    exact (Nat.mod_add_mod _ _ _)

theorem priv_stm_getc_consistent {stm : stm_t} (hw : stm_consistent stm)
    (hl : stm.limit < UINT_MOD) (hc : 0 < stm.count) :
    stm_consistent (priv_stm_getc stm).2 := by
  obtain ⟨h1, h2, h3, h4⟩ := hw
  have hcount := priv_stm_getc_count hc
  have hfirst : (priv_stm_getc stm).2.first = (stm.first + 1) % stm.limit := by
    simp only [priv_stm_getc]
    exact index_step h2 hl
  obtain ⟨-, -, hlimit, hnext, -⟩ := priv_stm_getc_fields stm
  refine ⟨?_, ?_, ?_, ?_⟩
  · rw [hcount, hlimit]; omega
  · rw [hfirst, hlimit]; exact Nat.mod_lt _ (by omega)
  · rw [hnext, hlimit]; exact h3
  · rw [hnext, hlimit, hfirst, hcount, h4, Nat.mod_add_mod]
    congr 1
    omega

theorem priv_stm_putc_contents {stm : stm_t} (c : Byte) (hw : stm_consistent stm)
    (hl : stm.limit < UINT_MOD) (hc : stm.count < stm.limit) :
    stm_contents (priv_stm_putc stm c) = stm_contents stm ++ [c] := by
  obtain ⟨h1, h2, h3, h4⟩ := hw
  have hcount := priv_stm_putc_count c hl hc
  obtain ⟨-, -, hlimit, hfirst⟩ := priv_stm_putc_fields stm c
  have hdata : (priv_stm_putc stm c).data = Function.update stm.data stm.next c := by
    simp [priv_stm_putc]
  unfold stm_contents
  rw [hcount, hlimit, hfirst, hdata, List.range_succ, List.map_append]
  congr 1
  · apply List.map_congr_left
    intro k hk
    have hk1 : k < stm.count := List.mem_range.mp hk
    apply Function.update_noteq
    intro he
    rw [h4] at he
    have := mod_index_inj (n := stm.limit) (a := stm.first + k) (b := stm.first + stm.count)
      (by omega) (by omega) he
    omega
  · have h5 : (stm.first + stm.count) % stm.limit = stm.next := h4.symm
    rw [List.map_cons, List.map_nil, h5, Function.update_same]

theorem priv_stm_getc_contents {stm : stm_t} (hw : stm_consistent stm)
    (hl : stm.limit < UINT_MOD) (hc : 0 < stm.count) :
    stm_contents stm = (priv_stm_getc stm).1 :: stm_contents (priv_stm_getc stm).2 := by
  obtain ⟨h1, h2, h3, h4⟩ := hw
  have hcount := priv_stm_getc_count hc
  have hfirst : (priv_stm_getc stm).2.first = (stm.first + 1) % stm.limit := by
    simp only [priv_stm_getc]
    exact index_step h2 hl
  obtain ⟨-, -, hlimit, -, hdata⟩ := priv_stm_getc_fields stm
  have hbyte : (priv_stm_getc stm).1 = stm.data stm.first := by simp [priv_stm_getc]
  unfold stm_contents
  rw [hcount, hlimit, hfirst, hdata, hbyte]
  obtain ⟨m, hm⟩ : ∃ m, stm.count = m + 1 := ⟨stm.count - 1, by omega⟩
  rw [hm, List.range_succ_eq_map, List.map_cons, List.map_map]
  congr 1
  · simp [Nat.mod_eq_of_lt h2]
  · apply List.map_congr_left
    intro k _
    simp only [Function.comp, Nat.add_sub_cancel, Nat.mod_add_mod]
    congr 2
    omega

/-! ### Block transfers -/

theorem priv_stm_put_spec (data : Mem) (n : Nat) : ∀ (stm : stm_t) (p : Nat),
    stm_consistent stm → stm.limit < UINT_MOD → stm.count + n ≤ stm.limit →
    stm_consistent (priv_stm_put stm data p n) ∧
    (priv_stm_put stm data p n).count = stm.count + n ∧
    (priv_stm_put stm data p n).limit = stm.limit ∧
    (priv_stm_put stm data p n).first = stm.first ∧
    (priv_stm_put stm data p n).queue = stm.queue ∧
    (priv_stm_put stm data p n).res = stm.res ∧
    stm_contents (priv_stm_put stm data p n) =
      stm_contents stm ++ (List.range n).map (fun k => data (p + k)) := by
  induction n with
  | zero =>
    intro stm p hw _ _
    simp [priv_stm_put, hw]
  | succ n ih =>
    intro stm p hw hl hc
    have hlt : stm.count < stm.limit := by omega
    have hw1 := priv_stm_putc_consistent (data p) hw hl hlt
    have hc1 := priv_stm_putc_count (data p) hl hlt
    have hk1 := priv_stm_putc_contents (data p) hw hl hlt
    obtain ⟨hq, hr, hlim, hf⟩ := priv_stm_putc_fields stm (data p)
    obtain ⟨i1, i2, i3, i4, i5, i6, i7⟩ :=
      ih (priv_stm_putc stm (data p)) (p + 1) hw1 (by rw [hlim]; exact hl)
        (by rw [hc1, hlim]; omega)
    simp only [priv_stm_put]
    refine ⟨i1, ?_, ?_, ?_, ?_, ?_, ?_⟩
    · rw [i2, hc1]; omega
    · rw [i3, hlim]
    · rw [i4, hf]
    · rw [i5, hq]
    · rw [i6, hr]
    · rw [i7, hk1, List.range_succ_eq_map, List.map_cons, List.map_map, List.append_assoc]
      congr 1
      simp only [List.singleton_append, Nat.add_zero, List.cons.injEq, true_and]
      apply List.map_congr_left
      intro k _
      simp only [Function.comp]
      congr 1
      omega

theorem priv_stm_get_spec (n : Nat) : ∀ (stm : stm_t) (dst : Mem) (p : Nat),
    stm_consistent stm → stm.limit < UINT_MOD → n ≤ stm.count →
    stm_consistent (priv_stm_get stm dst p n).1 ∧
    (priv_stm_get stm dst p n).1.count = stm.count - n ∧
    (priv_stm_get stm dst p n).1.limit = stm.limit ∧
    (priv_stm_get stm dst p n).1.next = stm.next ∧
    (priv_stm_get stm dst p n).1.queue = stm.queue ∧
    (priv_stm_get stm dst p n).1.res = stm.res ∧
    (priv_stm_get stm dst p n).1.data = stm.data ∧
    stm_contents stm = (List.range n).map (fun k => (priv_stm_get stm dst p n).2 (p + k)) ++
      stm_contents (priv_stm_get stm dst p n).1 ∧
    (∀ j, j < p ∨ p + n ≤ j → (priv_stm_get stm dst p n).2 j = dst j) := by
  induction n with
  | zero =>
    intro stm dst p hw _ _
    simp [priv_stm_get, hw]
  | succ n ih =>
    intro stm dst p hw hl hc
    have hpos : 0 < stm.count := by omega
    have hw1 := priv_stm_getc_consistent hw hl hpos
    have hc1 := priv_stm_getc_count hpos
    have hk1 := priv_stm_getc_contents hw hl hpos
    obtain ⟨hq, hr, hlim, hnx, hd⟩ := priv_stm_getc_fields stm
    obtain ⟨i1, i2, i3, i4, i5, i6, i7, i8, i9⟩ :=
      ih (priv_stm_getc stm).2 (Function.update dst p (priv_stm_getc stm).1) (p + 1) hw1
        (by rw [hlim]; exact hl) (by rw [hc1]; omega)
    simp only [priv_stm_get]
    refine ⟨i1, ?_, ?_, ?_, ?_, ?_, ?_, ?_, ?_⟩
    · rw [i2, hc1]; omega
    · rw [i3, hlim]
    · rw [i4, hnx]
    · rw [i5, hq]
    · rw [i6, hr]
    · rw [i7, hd]
    · rw [hk1, i8, List.range_succ_eq_map, List.map_cons, List.map_map, List.cons_append]
      congr 1
      · have h := i9 p (Or.inl (by omega))
        rw [Function.update_same] at h
        exact h.symm
      · congr 1
        apply List.map_congr_left
        intro k _
        simp only [Function.comp]
        rw [show p + 1 + k = p + (k + 1) by omega]
    · intro j hj
      rw [i9 j (by omega)]
      apply Function.update_noteq
      omega

/-! ### The drains on an empty wait queue, and the immediate paths -/

theorem stm_queue_nil_eta {stm : stm_t} (h : stm.queue = []) :
    ({ stm with queue := [] } : stm_t) = stm := by
  cases stm
  simp only at h
  subst h
  rfl

theorem priv_stm_putUpdate_nil {stm : stm_t} (h : stm.queue = []) :
    priv_stm_putUpdate stm = (stm, []) := by
  unfold priv_stm_putUpdate
  rw [h]
  simp only [priv_stm_putUpdate_loop, stm_queue_nil_eta h]

theorem priv_stm_getUpdate_nil {stm : stm_t} (h : stm.queue = []) :
    priv_stm_getUpdate stm = (stm, []) := by
  unfold priv_stm_getUpdate
  rw [h]
  simp only [priv_stm_getUpdate_loop, stm_queue_nil_eta h]

theorem priv_stm_space_nil {stm : stm_t} (hq : stm.queue = []) (hc : stm.count ≤ stm.limit) :
    priv_stm_space stm = stm.limit - stm.count := by
  unfold priv_stm_space u_sub
  by_cases h0 : stm.count = 0
  · rw [if_pos h0, h0]; rfl
  · rw [if_neg h0, hq]
    simp only [List.isEmpty_nil, if_true]
    rw [if_pos hc]

theorem stm_contents_length (stm : stm_t) : (stm_contents stm).length = stm.count := by
  simp [stm_contents]

theorem stm_give_nil {stm : stm_t} (src : Mem) {n : Nat} (hw : stm_consistent stm)
    (hl : stm.limit < UINT_MOD) (hq : stm.queue = []) (hn : 0 < n)
    (hfit : n ≤ stm.limit - stm.count) :
    (stm_give stm src n).event = E_SUCCESS ∧
    stm_consistent (stm_give stm src n).stm ∧
    (stm_give stm src n).stm.count = stm.count + n ∧
    (stm_give stm src n).stm.limit = stm.limit ∧
    (stm_give stm src n).stm.queue = [] ∧
    (stm_give stm src n).woken = [] ∧
    stm_contents (stm_give stm src n).stm = stm_contents stm ++ mem_read src n := by
  have hsp := priv_stm_space_nil hq hw.1
  have h1 : n > 0 ∧ n ≤ stm.limit := ⟨hn, by omega⟩
  have h2 : n ≤ priv_stm_space stm := by rw [hsp]; exact hfit
  obtain ⟨p1, p2, p3, p4, p5, p6, p7⟩ :=
    priv_stm_put_spec src n stm 0 hw hl (by have := hw.1; omega)
  have hu := priv_stm_putUpdate_nil (p5.trans hq)
  simp only [stm_give, if_pos h1, if_pos h2, hu]
  refine ⟨trivial, p1, p2, p3, p5.trans hq, trivial, ?_⟩
  rw [p7]
  simp [mem_read]

theorem stm_take_nil {stm : stm_t} (dst : Mem) {n : Nat} (hw : stm_consistent stm)
    (hl : stm.limit < UINT_MOD) (hq : stm.queue = []) (hn : 0 < n) (hfit : n ≤ stm.count) :
    (stm_take stm dst n).event = E_SUCCESS ∧
    stm_consistent (stm_take stm dst n).stm ∧
    (stm_take stm dst n).stm.count = stm.count - n ∧
    (stm_take stm dst n).stm.limit = stm.limit ∧
    (stm_take stm dst n).stm.queue = [] ∧
    (stm_take stm dst n).woken = [] ∧
    stm_contents stm = mem_read (stm_take stm dst n).data n ++
      stm_contents (stm_take stm dst n).stm ∧
    (∀ j, n ≤ j → (stm_take stm dst n).data j = dst j) := by
  have h1 : n > 0 := hn
  have h2 : stm.count > 0 := by omega
  have h3 : n ≤ priv_stm_count stm := hfit
  obtain ⟨g1, g2, g3, g4, g5, g6, g7, g8, g9⟩ := priv_stm_get_spec n stm dst 0 hw hl hfit
  have hu := priv_stm_getUpdate_nil (g5.trans hq)
  simp only [stm_take, if_pos h1, if_pos h2, if_pos h3, hu]
  refine ⟨trivial, g1, g2, g3, g5.trans hq, trivial, ?_, ?_⟩
  · rw [g8]
    simp [mem_read]
  · intro j hj
    exact g9 j (Or.inr (by omega))

/-! ### C1: round trip -/

/-- C1: on an empty, well-formed stream buffer with an empty wait queue (any
position of `first = next`), giving the `|s|` bytes of `s`, `1 ≤ |s| ≤ limit`,
succeeds, the following take of `|s|` bytes succeeds and delivers exactly `s`,
and afterwards `stm_count` is 0 and `stm_space` is `limit`. -/
theorem stm_round_trip (stm : stm_t) (src dst : Mem) (s : List Byte)
    (hl1 : 1 ≤ stm.limit) (hl : stm.limit < UINT_MOD)
    (hcount : stm.count = 0) (hfirst : stm.first = stm.next) (hnext : stm.next < stm.limit)
    (hq : stm.queue = [])
    (hs1 : 1 ≤ s.length) (hs2 : s.length ≤ stm.limit)
    (hsrc : mem_read src s.length = s) :
    (stm_give stm src s.length).event = E_SUCCESS ∧
    (stm_take (stm_give stm src s.length).stm dst s.length).event = E_SUCCESS ∧
    mem_read (stm_take (stm_give stm src s.length).stm dst s.length).data s.length = s ∧
    (stm_count (stm_take (stm_give stm src s.length).stm dst s.length).stm).1 = 0 ∧
    (stm_space (stm_take (stm_give stm src s.length).stm dst s.length).stm).1 = stm.limit := by
  have hw : stm_consistent stm := by
    refine ⟨by omega, by omega, hnext, ?_⟩
    rw [hcount, hfirst, Nat.add_zero, Nat.mod_eq_of_lt hnext]
  obtain ⟨a1, a2, a3, a4, a5, -, a7⟩ :=
    stm_give_nil src hw hl hq (show 0 < s.length by omega) (by omega)
  obtain ⟨b1, b2, b3, b4, b5, -, b7, -⟩ :=
    stm_take_nil dst a2 (by rw [a4]; exact hl) a5 (show 0 < s.length by omega)
      (by rw [a3]; omega)
  have hzero : (stm_take (stm_give stm src s.length).stm dst s.length).stm.count = 0 := by
    rw [b3, a3]; omega
  have hempty : stm_contents (stm_take (stm_give stm src s.length).stm dst s.length).stm = [] := by
    apply List.eq_nil_of_length_eq_zero
    rw [stm_contents_length, hzero]
  have hstart : stm_contents stm = [] := by
    apply List.eq_nil_of_length_eq_zero
    rw [stm_contents_length, hcount]
  refine ⟨a1, b1, ?_, hzero, ?_⟩
  · rw [a7, hstart, hempty, List.nil_append, List.append_nil, hsrc] at b7
    exact b7.symm
  · show priv_stm_space _ = stm.limit
    unfold priv_stm_space
    rw [if_pos hzero, b4, a4]

/-- The C1 round trip at capacity 8 with the bytes of "ABCD", the indices
placed so that the transfer wraps past the end of the array. -/
theorem stm_round_trip_witness :
    (stm_give stm_demo_wrap (mem_of [65, 66, 67, 68]) 4).event = E_SUCCESS ∧
    (stm_take (stm_give stm_demo_wrap (mem_of [65, 66, 67, 68]) 4).stm (mem_of []) 4).event
      = E_SUCCESS ∧
    mem_read (stm_take (stm_give stm_demo_wrap (mem_of [65, 66, 67, 68]) 4).stm
      (mem_of []) 4).data 4 = [65, 66, 67, 68] ∧
    (stm_count (stm_take (stm_give stm_demo_wrap (mem_of [65, 66, 67, 68]) 4).stm
      (mem_of []) 4).stm).1 = 0 ∧
    (stm_space (stm_take (stm_give stm_demo_wrap (mem_of [65, 66, 67, 68]) 4).stm
      (mem_of []) 4).stm).1 = 8 :=
  stm_round_trip stm_demo_wrap (mem_of [65, 66, 67, 68]) (mem_of []) [65, 66, 67, 68]
    (by decide) (by decide) rfl rfl (by decide) rfl (by decide) (by decide) (by decide)

/-! ### C3: no partial transfer -/

/-- C3: when `stm_take` or `stm_give` returns anything other than Success it
returns Timeout, the object is exactly what it was before the call (count,
first, next, array, wait queue, hence the buffered bytes and the values of
`stm_count` and `stm_space`), no task is woken, and the bytes of the caller's
buffer are not written. -/
theorem stm_no_partial_transfer (stm : stm_t) (data : Mem) (size : Nat) (r : stm_result)
    (hr : r = stm_take stm data size ∨ r = stm_give stm data size)
    (hfail : r.event ≠ E_SUCCESS) :
    r.event = E_TIMEOUT ∧ r.stm = stm ∧ r.data = data ∧ r.woken = [] ∧
    stm_contents r.stm = stm_contents stm ∧
    (stm_count r.stm).1 = (stm_count stm).1 ∧ (stm_space r.stm).1 = (stm_space stm).1 := by
  have key : r.event = E_TIMEOUT ∧ r.stm = stm ∧ r.data = data ∧ r.woken = [] := by
    rcases hr with h | h
    · subst h
      unfold stm_take at hfail ⊢
      split_ifs at hfail ⊢ <;> first | exact absurd rfl hfail | exact ⟨rfl, rfl, rfl, rfl⟩
    · subst h
      unfold stm_give at hfail ⊢
      split_ifs at hfail ⊢ <;> first | exact absurd rfl hfail | exact ⟨rfl, rfl, rfl, rfl⟩
  obtain ⟨k1, k2, k3, k4⟩ := key
  exact ⟨k1, k2, k3, k4, by rw [k2], by rw [k2], by rw [k2]⟩

/-- A failed take of 3 bytes from a buffer holding 2, with a task queued. -/
theorem stm_no_partial_transfer_witness :
    (stm_take stm_demo_pending (mem_of [1, 2, 3]) 3).event ≠ E_SUCCESS ∧
    (stm_take stm_demo_pending (mem_of [1, 2, 3]) 3).event = E_TIMEOUT ∧
    (stm_take stm_demo_pending (mem_of [1, 2, 3]) 3).stm = stm_demo_pending ∧
    (stm_take stm_demo_pending (mem_of [1, 2, 3]) 3).data = mem_of [1, 2, 3] :=
  have h := stm_no_partial_transfer stm_demo_pending (mem_of [1, 2, 3]) 3 _
    (Or.inl rfl) (by decide)
  ⟨by decide, h.1, h.2.1, h.2.2.1⟩

/-! ### C4: requests that can never be satisfied -/

/-- C4: in any state, `stm_give` with `size = 0` or `size > limit` returns
Timeout, leaves the object (array, indices, count, wait queue) untouched and
wakes no task. -/
theorem stm_give_unsatisfiable (stm : stm_t) (data : Mem) (size : Nat)
    (hsize : size = 0 ∨ stm.limit < size) :
    (stm_give stm data size).event = E_TIMEOUT ∧ (stm_give stm data size).stm = stm ∧
    (stm_give stm data size).data = data ∧ (stm_give stm data size).woken = [] := by
  have h : ¬ (size > 0 ∧ size ≤ stm.limit) := by omega
  simp only [stm_give, if_neg h]
  exact ⟨trivial, trivial, trivial, trivial⟩

/-- A give of 5 bytes to an empty buffer of capacity 4 with a waiting consumer. -/
theorem stm_give_unsatisfiable_witness :
    stm_demo_waiting.limit < 5 ∧
    (stm_give stm_demo_waiting (mem_of [1, 2, 3, 4, 5]) 5).event = E_TIMEOUT ∧
    (stm_give stm_demo_waiting (mem_of [1, 2, 3, 4, 5]) 5).stm = stm_demo_waiting ∧
    (stm_give stm_demo_waiting (mem_of [1, 2, 3, 4, 5]) 5).woken = [] :=
  have h := stm_give_unsatisfiable stm_demo_waiting (mem_of [1, 2, 3, 4, 5]) 5
    (Or.inr (by decide))
  ⟨by decide, h.1, h.2.1, h.2.2.2⟩

/-! ### C6: accounting -/

/-- C6: `stm_count` returns `count`; `stm_space` returns `limit` when
`count = 0` (whatever the wait queue), otherwise the `unsigned` difference
`limit - count` when the wait queue is empty (the exact difference whenever
`count ≤ limit`), otherwise 0; neither call changes the object; and
`stm_count + stm_space ≤ limit` whenever `count ≤ limit`. -/
theorem stm_accounting (stm : stm_t) :
    (stm_count stm).1 = stm.count ∧ (stm_count stm).2 = stm ∧ (stm_space stm).2 = stm ∧
    (stm.count = 0 → (stm_space stm).1 = stm.limit) ∧
    (stm.count ≠ 0 → stm.queue = [] → (stm_space stm).1 = u_sub stm.limit stm.count) ∧
    (stm.count ≠ 0 → stm.queue = [] → stm.count ≤ stm.limit →
      (stm_space stm).1 = stm.limit - stm.count) ∧
    (stm.count ≠ 0 → stm.queue ≠ [] → (stm_space stm).1 = 0) ∧
    (stm.count ≤ stm.limit → (stm_count stm).1 + (stm_space stm).1 ≤ stm.limit) := by
  have hnil : stm.count ≠ 0 → stm.queue = [] → priv_stm_space stm = u_sub stm.limit stm.count := by
    intro h0 hq
    unfold priv_stm_space
    rw [if_neg h0, hq]
    rfl
  refine ⟨rfl, rfl, rfl, ?_, hnil, ?_, ?_, ?_⟩
  · intro h0
    show priv_stm_space stm = _
    unfold priv_stm_space
    rw [if_pos h0]
  · intro h0 hq hle
    show priv_stm_space stm = _
    rw [hnil h0 hq]
    unfold u_sub
    rw [if_pos hle]
  · intro h0 hq
    show priv_stm_space stm = _
    unfold priv_stm_space
    rw [if_neg h0]
    cases hq1 : stm.queue with
    | nil => exact absurd hq1 hq
    | cons t q => rfl
  · intro h
    show stm.count + priv_stm_space stm ≤ stm.limit
    unfold priv_stm_space u_sub
    split_ifs <;> omega

/-! ### C10: the deferred consumer -/

/-- C10 fails at limit 4, k = 3, a = b = 2: A is suspended by
`stm_waitFor(size = 3)` on the empty buffer, but the first `stm_give(size = 2)`
does not leave it blocked: its post-write drain wakes A with Timeout and
empties the wait queue. The second `stm_give(size = 2)` then wakes nobody and
leaves count = 4, not 1. -/
theorem stm_deferred_consumer_refuted :
    (stm_waitFor (stm_init 4 (mem_of [])) tsk_demo_A (mem_of []) 3 10).is_suspended = true ∧
    stm_demo_deferred.queue.map (fun t => (t.id, t.stm_size)) = [(1, 3)] ∧
    (stm_give stm_demo_deferred (mem_of [1, 2]) 2).event = E_SUCCESS ∧
    (stm_give stm_demo_deferred (mem_of [1, 2]) 2).woken.map (fun t => (t.id, t.event))
      = [(1, E_TIMEOUT)] ∧
    (stm_give stm_demo_deferred (mem_of [1, 2]) 2).stm.queue.length = 0 ∧
    (stm_give (stm_give stm_demo_deferred (mem_of [1, 2]) 2).stm (mem_of [3, 4]) 2).event
      = E_SUCCESS ∧
    (stm_give (stm_give stm_demo_deferred (mem_of [1, 2]) 2).stm (mem_of [3, 4]) 2).woken.length
      = 0 ∧
    (stm_give (stm_give stm_demo_deferred (mem_of [1, 2]) 2).stm (mem_of [3, 4]) 2).stm.count
      = 4 := by
  decide

/-- C10 as the code has it: A is suspended by `stm_waitFor(size = k)` on an
empty buffer with no other waiter; with `0 < a < k ≤ a + b ≤ limit` the first
`stm_give(size = a)` returns Success and its post-write drain wakes A with
Timeout, no byte copied to A, leaving the wait queue empty and `count = a`;
the second `stm_give(size = b)` returns Success, wakes no task and leaves
`count = a + b`. -/
theorem stm_deferred_consumer (stm : stm_t) (A : tsk_t) (dst src1 src2 : Mem)
    (k a b delay : Nat)
    (hw : stm_consistent stm) (hl : stm.limit < UINT_MOD) (hempty : stm.count = 0)
    (hq : stm.queue = [])
    (ha : 0 < a) (hak : a < k) (hk : k ≤ a + b) (hab : a + b ≤ stm.limit) :
    stm_waitFor stm A dst k delay =
      .suspended { stm with queue := [{ A with stm_data := dst, stm_size := k }] } ∧
    (stm_give (stm_waitFor stm A dst k delay).stm src1 a).event = E_SUCCESS ∧
    (stm_give (stm_waitFor stm A dst k delay).stm src1 a).woken =
      [core_tsk_wakeup { A with stm_data := dst, stm_size := k } E_TIMEOUT] ∧
    (stm_give (stm_waitFor stm A dst k delay).stm src1 a).stm.queue = [] ∧
    (stm_give (stm_waitFor stm A dst k delay).stm src1 a).stm.count = a ∧
    (stm_give (stm_give (stm_waitFor stm A dst k delay).stm src1 a).stm src2 b).event
      = E_SUCCESS ∧
    (stm_give (stm_give (stm_waitFor stm A dst k delay).stm src1 a).stm src2 b).woken = [] ∧
    (stm_give (stm_give (stm_waitFor stm A dst k delay).stm src1 a).stm src2 b).stm.count
      = a + b := by
  have hwait : stm_waitFor stm A dst k delay =
      .suspended { stm with queue := [{ A with stm_data := dst, stm_size := k }] } := by
    have h1 : k > 0 := by omega
    have h2 : ¬ stm.count > 0 := by omega
    simp only [stm_waitFor, priv_stm_wait, if_pos h1, if_neg h2, core_tsk_waitFor, hq,
      List.nil_append]
  rw [hwait]
  simp only [stm_blocking.stm]
  generalize hs1 : ({ stm with queue := [{ A with stm_data := dst, stm_size := k }] } : stm_t) = s1
  have hs1c : s1.count = 0 := by rw [← hs1]; exact hempty
  have hs1l : s1.limit = stm.limit := by rw [← hs1]
  have hs1q : s1.queue = [{ A with stm_data := dst, stm_size := k }] := by rw [← hs1]
  have hs1w : stm_consistent s1 := by rw [← hs1]; exact hw
  obtain ⟨p1, p2, p3, -, p5, -, -⟩ :=
    priv_stm_put_spec src1 a s1 0 hs1w (by rw [hs1l]; exact hl) (by rw [hs1c, hs1l]; omega)
  have hg1 : stm_give s1 src1 a =
      { event := E_SUCCESS, stm := { priv_stm_put s1 src1 0 a with queue := [] }, data := src1,
        woken := [core_tsk_wakeup { A with stm_data := dst, stm_size := k } E_TIMEOUT] } := by
    have h1 : a > 0 ∧ a ≤ s1.limit := ⟨ha, by rw [hs1l]; omega⟩
    have h2 : a ≤ priv_stm_space s1 := by
      unfold priv_stm_space
      rw [if_pos hs1c, hs1l]; omega
    have h3 : (priv_stm_put s1 src1 0 a).count > 0 := by rw [p2]; omega
    have h4 : ¬ k ≤ (priv_stm_put s1 src1 0 a).count := by rw [p2, hs1c]; omega
    simp only [stm_give, if_pos h1, if_pos h2, priv_stm_putUpdate, p5, hs1q,
      priv_stm_putUpdate_loop, if_pos h3, if_neg h4]
  rw [hg1]
  have hc2 : (priv_stm_put s1 src1 0 a).count = a := by rw [p2, hs1c]; omega
  obtain ⟨q1, -, q3, -, -, q6, -⟩ :=
    @stm_give_nil { priv_stm_put s1 src1 0 a with queue := [] } src2 b
      p1 (by show (priv_stm_put s1 src1 0 a).limit < _; rw [p3, hs1l]; exact hl) rfl
      (by omega)
      (by show b ≤ (priv_stm_put s1 src1 0 a).limit - (priv_stm_put s1 src1 0 a).count
          rw [p3, hc2, hs1l]; omega)
  refine ⟨trivial, rfl, rfl, rfl, hc2, q1, q6, ?_⟩
  rw [q3]
  show (priv_stm_put s1 src1 0 a).count + b = a + b
  rw [hc2]

/-- The deferred-consumer scenario of the spec: limit 4, k = 3, a = b = 2. -/
theorem stm_deferred_consumer_witness :
    (stm_give (stm_waitFor (stm_init 4 (mem_of [])) tsk_demo_A (mem_of []) 3 10).stm
      (mem_of [1, 2]) 2).woken =
      [core_tsk_wakeup { tsk_demo_A with stm_data := mem_of [], stm_size := 3 } E_TIMEOUT] ∧
    (stm_give (stm_give (stm_waitFor (stm_init 4 (mem_of [])) tsk_demo_A (mem_of []) 3 10).stm
      (mem_of [1, 2]) 2).stm (mem_of [3, 4]) 2).stm.count = 2 + 2 :=
  have h := stm_deferred_consumer (stm_init 4 (mem_of [])) tsk_demo_A (mem_of [])
    (mem_of [1, 2]) (mem_of [3, 4]) 3 2 2 10
    ⟨by decide, by decide, by decide, by decide⟩ (by decide) rfl rfl
    (by decide) (by decide) (by decide) (by decide)
  ⟨h.2.2.1, h.2.2.2.2.2.2.2⟩

/-! ### C8: kill -/

/-- C8: `lst_kill` wakes every task of the wait queue with Stopped, in queue
order, and empties the queue; the chain (`head.next` and the link words) is
unchanged, so `lst_take` right after `lst_kill` returns the event and the
block it would have returned right before, and leaves the same chain. -/
theorem lst_kill_keeps_chain (lst : lst_t) (data : Nat) :
    (lst_kill lst).2 = lst.queue.map (fun t => { t with event := E_STOPPED }) ∧
    (∀ t ∈ (lst_kill lst).2, t.event = E_STOPPED) ∧
    (lst_kill lst).2.length = lst.queue.length ∧
    (lst_kill lst).1.queue = [] ∧
    (lst_kill lst).1.head = lst.head ∧ (lst_kill lst).1.link = lst.link ∧
    (lst_kill lst).1.res = lst.res ∧
    (lst_take (lst_kill lst).1 data).event = (lst_take lst data).event ∧
    (lst_take (lst_kill lst).1 data).data = (lst_take lst data).data ∧
    (lst_take (lst_kill lst).1 data).lst.head = (lst_take lst data).lst.head ∧
    (lst_take (lst_kill lst).1 data).lst.link = (lst_take lst data).lst.link := by
  refine ⟨rfl, ?_, ?_, rfl, rfl, rfl, rfl, ?_, ?_, ?_, ?_⟩
  · intro t ht
    simp only [lst_kill, core_all_wakeup, core_tsk_wakeup, List.mem_map] at ht
    obtain ⟨u, -, hu⟩ := ht
    rw [← hu]
  · simp [lst_kill, core_all_wakeup]
  all_goals
    simp only [lst_take, lst_kill]
    split_ifs <;> rfl

/-! ### C9: the non-blocking receive -/

/-- C9: on a non-empty chain `lst_take` returns Success, stores the head block
in `*data` and unlinks exactly that node, the rest of the chain keeping its
order, and `lst_waitFor` / `lst_waitUntil` do exactly the same; on an empty
chain `lst_take` returns Timeout and leaves `*data`, the chain and the wait
queue as they were. `lst_take` never suspends: it always returns a result. -/
theorem lst_take_total (lst : lst_t) (cur : tsk_t) (data time : Nat) :
    (lst.head ≠ 0 →
      (lst_take lst data).event = E_SUCCESS ∧
      (lst_take lst data).data = lst.head + 1 ∧
      (lst_take lst data).lst = { lst with head := lst.link lst.head } ∧
      (∀ c, lst_chain lst c → ∃ n rest, c = n :: rest ∧ (lst_take lst data).data = n + 1 ∧
        lst_chain (lst_take lst data).lst rest) ∧
      lst_waitFor lst cur data time = .returned (lst_take lst data) ∧
      lst_waitUntil lst cur data time = .returned (lst_take lst data)) ∧
    (lst.head = 0 →
      (lst_take lst data).event = E_TIMEOUT ∧
      (lst_take lst data).data = data ∧
      (lst_take lst data).lst = lst) := by
  constructor
  · intro h
    refine ⟨?_, ?_, ?_, ?_, ?_, ?_⟩
    · simp only [lst_take, if_pos h]
    · simp only [lst_take, if_pos h]
    · simp only [lst_take, if_pos h]
    · intro c hc
      obtain ⟨hc1, hc2⟩ := hc
      cases c with
      | nil => exact absurd hc1 h
      | cons n rest =>
        obtain ⟨h1, -, h3⟩ := hc1
        refine ⟨n, rest, rfl, ?_, ?_, (List.nodup_cons.mp hc2).2⟩
        · simp only [lst_take, if_pos h]
          rw [h1]
        · simp only [lst_take, if_pos h]
          rw [h1]
          exact h3
    · simp only [lst_waitFor, priv_lst_wait, lst_take, if_pos h]
    · simp only [lst_waitUntil, priv_lst_wait, lst_take, if_pos h]
  · intro h
    have h2 : ¬ lst.head ≠ 0 := fun hne => hne h
    simp only [lst_take, if_neg h2]
    exact ⟨trivial, trivial, trivial⟩

/-- The non-blocking receive on the chain of the blocks 4 and 8. -/
theorem lst_take_total_witness :
    lst_demo_two.head ≠ 0 ∧
    (lst_take lst_demo_two 0).event = E_SUCCESS ∧
    (lst_take lst_demo_two 0).data = 4 ∧
    lst_waitFor lst_demo_two (tsk_demo_B 1) 0 5 = .returned (lst_take lst_demo_two 0) :=
  have h := (lst_take_total lst_demo_two (tsk_demo_B 1) 0 5).1 (by decide)
  ⟨by decide, h.1, h.2.1, h.2.2.2.2.1⟩

/-! ### C7: direct handoff -/

theorem que_set_next_queue (lst : lst_t) (ptr : que_ptr) (v : Nat) :
    (que_set_next lst ptr v).queue = lst.queue ∧ (que_set_next lst ptr v).res = lst.res := by
  cases ptr <;> exact ⟨rfl, rfl⟩

theorem lst_give_cons {lst : lst_t} {t : tsk_t} {q : List tsk_t} (hq : lst.queue = t :: q)
    (fuel data : Nat) :
    lst_give fuel lst data =
      some ({ lst with queue := q }, [{ core_tsk_wakeup t E_SUCCESS with lst_data := data }]) := by
  simp only [lst_give, hq, core_one_wakeup]

theorem lst_give_nil_queue {lst : lst_t} (hq : lst.queue = []) {fuel data : Nat}
    {r : lst_t × List tsk_t} (h : lst_give fuel lst data = some r) :
    r.1.queue = [] ∧ r.2 = [] := by
  simp only [lst_give, hq, core_one_wakeup] at h
  cases hs : lst_scan lst fuel .head with
  | none => rw [hs] at h; cases h
  | some ptr =>
    rw [hs] at h
    simp only [Option.some.injEq] at h
    rw [← h]
    refine ⟨?_, rfl⟩
    rw [(que_set_next_queue _ _ _).1, (que_set_next_queue _ _ _).1]
    exact hq

theorem lst_blocked_chain_empty {lst : lst_t} (hr : lst_reachable lst) :
    lst.queue ≠ [] → lst.head = 0 := by
  induction hr with
  | init link => intro h; exact absurd rfl h
  | take lst data _ ih =>
    intro h
    by_cases h0 : lst.head ≠ 0
    · simp only [lst_take, if_pos h0] at h
      exact absurd (ih h) h0
    · simp only [lst_take, if_neg h0] at h ⊢
      exact ih h
  | waitFor lst cur data delay _ ih =>
    intro h
    by_cases h0 : lst.head ≠ 0
    · simp only [lst_waitFor, priv_lst_wait, if_pos h0, lst_blocking.lst] at h
      exact absurd (ih h) h0
    · simp only [lst_waitFor, priv_lst_wait, if_neg h0, lst_blocking.lst]
      exact not_not.mp h0
  | waitUntil lst cur data time _ ih =>
    intro h
    by_cases h0 : lst.head ≠ 0
    · simp only [lst_waitUntil, priv_lst_wait, if_pos h0, lst_blocking.lst] at h
      exact absurd (ih h) h0
    · simp only [lst_waitUntil, priv_lst_wait, if_neg h0, lst_blocking.lst]
      exact not_not.mp h0
  | give lst fuel data r _ hg ih =>
    intro h
    cases hq : lst.queue with
    | nil => exact absurd (lst_give_nil_queue hq hg).1 h
    | cons t q =>
      rw [lst_give_cons hq] at hg
      simp only [Option.some.injEq] at hg
      rw [← hg]
      exact ih (by rw [hq]; exact List.cons_ne_nil t q)
  | kill lst _ _ => intro h; exact absurd rfl h
  | timeout lst i _ ih =>
    intro h
    apply ih
    intro hq
    apply h
    show lst.queue.eraseIdx i = []
    rw [hq]
    rfl

/-- C7: whenever the wait queue is non-empty, `lst_give` wakes exactly the
longest-waiting receiver, with Success and with `data` stored in its
destination; the other receivers stay queued in their order and `head.next`
and the link words are not touched. In every state reachable from `lst_init`
(by take, waitFor, waitUntil, give, kill and waiters timing out) a non-empty
wait queue implies an empty chain, so the chain is empty before and after
the call. -/
theorem lst_give_handoff (lst : lst_t) (t : tsk_t) (q : List tsk_t)
    (hq : lst.queue = t :: q) (fuel data : Nat) :
    lst_give fuel lst data =
      some ({ lst with queue := q }, [{ t with event := E_SUCCESS, lst_data := data }]) ∧
    (lst_reachable lst → lst_chain lst [] ∧ lst_chain { lst with queue := q } []) := by
  refine ⟨lst_give_cons hq fuel data, ?_⟩
  intro hr
  have h0 : lst.head = 0 := lst_blocked_chain_empty hr (by rw [hq]; exact List.cons_ne_nil t q)
  exact ⟨⟨h0, List.nodup_nil⟩, ⟨h0, List.nodup_nil⟩⟩

/-- Two receivers are suspended on a fresh list; a give of block 6 wakes only
the first one and hands it the block, and the chain stays empty. -/
theorem lst_give_handoff_witness :
    lst_demo_blocked.queue.map (fun t => t.id) = [1, 2] ∧
    (lst_give 0 lst_demo_blocked 6).map
      (fun r => (r.1.queue.map (fun t => t.id), r.2.map (fun t => (t.id, t.event, t.lst_data)),
        r.1.head)) = some ([2], [(1, E_SUCCESS, 6)], 0) ∧
    lst_chain lst_demo_blocked [] :=
  have h := lst_give_handoff lst_demo_blocked (tsk_demo_B 1) [tsk_demo_B 2] rfl 0 6
  ⟨by decide, by rw [h.1]; rfl,
    (h.2 (lst_reachable.waitUntil _ (tsk_demo_B 2) 0 99
      (lst_reachable.waitFor _ (tsk_demo_B 1) 0 10 (lst_reachable.init link_demo)))).1⟩

/-! ### C2: FIFO order -/

theorem lst_scan_spec (lst : lst_t) (c : List Nat) : ∀ (fuel : Nat) (ptr : que_ptr),
    is_chain lst.link (que_next lst ptr) c → c.length < fuel →
    lst_scan lst fuel ptr = some (match c.getLast? with
      | none => ptr
      | some n => .node n) := by
  induction c with
  | nil =>
    intro fuel ptr h hf
    obtain ⟨f, rfl⟩ : ∃ f, fuel = f + 1 := ⟨fuel - 1, by simp at hf; omega⟩
    have h0 : ¬ que_next lst ptr ≠ 0 := fun hne => hne h
    simp only [lst_scan, if_neg h0, List.getLast?_nil]
  | cons n c ih =>
    intro fuel ptr h hf
    obtain ⟨f, rfl⟩ : ∃ f, fuel = f + 1 := ⟨fuel - 1, by simp at hf; omega⟩
    obtain ⟨h1, h2, h3⟩ := h
    have h0 : que_next lst ptr ≠ 0 := by rw [h1]; exact h2
    simp only [lst_scan, if_pos h0]
    rw [ih f (.node (que_next lst ptr)) (by rw [h1]; exact h3)
      (by simp only [List.length_cons] at hf; omega)]
    cases c with
    | nil => simp only [List.getLast?_nil, List.getLast?_singleton, h1]
    | cons m c =>
      obtain ⟨l, hl⟩ : ∃ l, (m :: c).getLast? = some l :=
        ⟨_, List.getLast?_eq_getLast _ (List.cons_ne_nil m c)⟩
      rw [List.getLast?_cons_cons, hl]

theorem is_chain_append_node {link : Nat → Nat} {node : Nat} (hn : node ≠ 0) :
    ∀ (c : List Nat) (last : Nat) (a : Nat), c.getLast? = some last → is_chain link a c →
      c.Nodup → node ∉ c →
      is_chain (Function.update (Function.update link last node) node 0) a (c ++ [node]) := by
  intro c
  induction c with
  | nil => intro last a h; simp at h
  | cons n c ih =>
    intro last a hlast h hnd hmem
    obtain ⟨h1, h2, h3⟩ := h
    have hne : n ≠ node := fun e => hmem (by rw [e]; exact List.mem_cons_self _ _)
    cases c with
    | nil =>
      simp only [List.getLast?_singleton, Option.some.injEq] at hlast
      subst hlast
      refine ⟨h1, h2, ?_, hn, ?_⟩
      · rw [Function.update_noteq hne, Function.update_same]
      · show Function.update (Function.update link n node) node 0 node = 0
        rw [Function.update_same]
    | cons m c =>
      rw [List.getLast?_cons_cons] at hlast
      have hnd2 := List.nodup_cons.mp hnd
      have hlm : last ∈ m :: c := List.mem_of_getLast?_eq_some hlast
      have hnl : n ≠ last := fun e => hnd2.1 (by rw [e]; exact hlm)
      refine ⟨h1, h2, ?_⟩
      rw [Function.update_noteq hne, Function.update_noteq hnl]
      exact ih last (link n) hlast h3 hnd2.2 (fun hm => hmem (List.mem_cons_of_mem n hm))

theorem lst_give_append {lst : lst_t} {c : List Nat} {fuel d : Nat} (hq : lst.queue = [])
    (hc : lst_chain lst c) (hd : 2 ≤ d) (hnew : d - 1 ∉ c) (hf : c.length < fuel) :
    ∃ lst2, lst_give fuel lst d = some (lst2, []) ∧ lst2.queue = [] ∧
      lst_chain lst2 (c ++ [d - 1]) := by
  obtain ⟨hc1, hc2⟩ := hc
  have hn : d - 1 ≠ 0 := by omega
  have hnd : (c ++ [d - 1]).Nodup := by
    rw [List.nodup_append]
    refine ⟨hc2, List.nodup_singleton _, ?_⟩
    intro x hx hx2
    rw [List.mem_singleton] at hx2
    exact hnew (hx2 ▸ hx)
  have hscan := lst_scan_spec lst c fuel .head hc1 hf
  cases hl : c.getLast? with
  | none =>
    have hnil : c = [] := List.getLast?_eq_none_iff.mp hl
    subst hnil
    rw [hl] at hscan
    refine ⟨que_set_next (que_set_next lst .head (d - 1))
      (.node (que_next (que_set_next lst .head (d - 1)) .head)) 0, ?_, ?_, ?_, hnd⟩
    · simp only [lst_give, hq, core_one_wakeup, hscan]
    · exact hq
    · show is_chain (Function.update lst.link (d - 1) 0) (d - 1) [d - 1]
      exact ⟨rfl, hn, by show Function.update lst.link (d - 1) 0 (d - 1) = 0
                         rw [Function.update_same]⟩
  | some last =>
    rw [hl] at hscan
    refine ⟨que_set_next (que_set_next lst (.node last) (d - 1))
      (.node (que_next (que_set_next lst (.node last) (d - 1)) (.node last))) 0, ?_, ?_, ?_, hnd⟩
    · simp only [lst_give, hq, core_one_wakeup, hscan]
    · exact hq
    · show is_chain (Function.update (Function.update lst.link last (d - 1))
        (Function.update lst.link last (d - 1) last) 0) lst.head (c ++ [d - 1])
      rw [Function.update_same]
      exact is_chain_append_node hn c last lst.head hl hc1 hc2 hnew

theorem lst_give_all_spec (fuel : Nat) (ds : List Nat) : ∀ (lst : lst_t) (c : List Nat),
    lst.queue = [] → lst_chain lst c → ds.Nodup → (∀ d ∈ ds, 2 ≤ d ∧ d - 1 ∉ c) →
    c.length + ds.length ≤ fuel →
    ∃ lst2, lst_give_all fuel lst ds = some lst2 ∧ lst2.queue = [] ∧
      lst_chain lst2 (c ++ ds.map (fun d => d - 1)) := by
  induction ds with
  | nil =>
    intro lst c hq hc _ _ _
    exact ⟨lst, rfl, hq, by simpa using hc⟩
  | cons d ds ih =>
    intro lst c hq hc hnd hds hf
    have hd := hds d (List.mem_cons_self d ds)
    have hnd2 := List.nodup_cons.mp hnd
    simp only [List.length_cons] at hf
    obtain ⟨lst1, g1, g2, g3⟩ :=
      @lst_give_append lst c fuel d hq hc hd.1 hd.2 (by omega)
    obtain ⟨lst2, k1, k2, k3⟩ := ih lst1 (c ++ [d - 1]) g2 g3 hnd2.2
      (by
        intro e he
        have h1 := hds e (List.mem_cons_of_mem d he)
        refine ⟨h1.1, ?_⟩
        intro hmem
        rcases List.mem_append.mp hmem with h | h
        · exact h1.2 h
        · rw [List.mem_singleton] at h
          have : e = d := by omega
          exact hnd2.1 (this ▸ he))
      (by simp only [List.length_append, List.length_singleton]; omega)
    refine ⟨lst2, ?_, k2, ?_⟩
    · simp only [lst_give_all, g1, k1]
    · simpa using k3

theorem lst_take_all_spec (c : List Nat) : ∀ (lst : lst_t), is_chain lst.link lst.head c →
    (lst_take_all c.length lst).1 = c.map (fun n => (E_SUCCESS, n + 1)) ∧
    (lst_take_all c.length lst).2.head = 0 ∧
    (lst_take_all c.length lst).2.queue = lst.queue := by
  induction c with
  | nil =>
    intro lst h
    exact ⟨rfl, h, rfl⟩
  | cons n c ih =>
    intro lst h
    obtain ⟨h1, h2, h3⟩ := h
    have h0 : lst.head ≠ 0 := by rw [h1]; exact h2
    have ht : lst_take lst 0 =
        { event := E_SUCCESS, lst := { lst with head := lst.link n }, data := n + 1 } := by
      simp only [lst_take, if_pos h0]
      rw [h1]
    obtain ⟨i1, i2, i3⟩ := ih { lst with head := lst.link n } h3
    simp only [List.length_cons, lst_take_all, ht, List.map_cons]
    exact ⟨by rw [i1], i2, i3⟩

/-- C2 fails when a block is given twice: after `lst_give` of block 2 and
`lst_give` of block 2 again (both scans end) the chain holds the block once,
so the first `lst_take` returns it and the second returns Timeout, where the
claim has a second Success. -/
theorem lst_fifo_refuted :
    (lst_give_all 5 (lst_init (fun _ => 0)) [2, 2]).map (fun lst => (lst_take_all 2 lst).1)
      = some [(E_SUCCESS, 2), (E_TIMEOUT, 0)] := by
  decide

/-- C2 for distinct blocks: on a message list with an empty chain and no
blocked receiver, `lst_give` of the pairwise distinct blocks `ds` (each one
with its link word at a non-null address), in this order, always ends, and
then `|ds|` calls of `lst_take` all return Success and return the blocks of
`ds` in the order given, and one more `lst_take` returns Timeout. -/
theorem lst_fifo (lst : lst_t) (ds : List Nat) (fuel data : Nat)
    (hhead : lst.head = 0) (hq : lst.queue = []) (hnd : ds.Nodup) (hds : ∀ d ∈ ds, 2 ≤ d)
    (hf : ds.length ≤ fuel) :
    ∃ lst2, lst_give_all fuel lst ds = some lst2 ∧
      (lst_take_all ds.length lst2).1 = ds.map (fun d => (E_SUCCESS, d)) ∧
      (lst_take (lst_take_all ds.length lst2).2 data).event = E_TIMEOUT := by
  obtain ⟨lst2, g1, -, g3⟩ := lst_give_all_spec fuel ds lst [] hq ⟨hhead, List.nodup_nil⟩ hnd
    (fun d hd => ⟨hds d hd, List.not_mem_nil _⟩) (by simpa using hf)
  rw [List.nil_append] at g3
  obtain ⟨t1, t2, -⟩ := lst_take_all_spec (ds.map (fun d => d - 1)) lst2 g3.1
  rw [List.length_map] at t1 t2
  refine ⟨lst2, g1, ?_, ?_⟩
  · rw [t1, List.map_map]
    apply List.map_congr_left
    intro d hd
    have := hds d hd
    simp only [Function.comp]
    congr 1
    omega
  · have h0 : ¬ (lst_take_all ds.length lst2).2.head ≠ 0 := fun h => h t2
    simp only [lst_take, if_neg h0]

/-- Three distinct blocks given to a fresh list come back in the order given. -/
theorem lst_fifo_witness :
    ∃ lst2, lst_give_all 3 (lst_init link_demo) [4, 8, 2] = some lst2 ∧
      (lst_take_all 3 lst2).1 = [(E_SUCCESS, 4), (E_SUCCESS, 8), (E_SUCCESS, 2)] ∧
      (lst_take (lst_take_all 3 lst2).2 0).event = E_TIMEOUT :=
  lst_fifo (lst_init link_demo) [4, 8, 2] 3 0 rfl rfl (by decide) (by decide) (by decide)

/-! ### C5: the consistency predicate -/

theorem stm_init_consistent {limit : Nat} (data : Mem) (h : 0 < limit) :
    stm_consistent (stm_init limit data) :=
  ⟨Nat.zero_le _, h, h, (Nat.zero_mod _).symm⟩

theorem stm_kill_consistent {stm : stm_t} (hw : stm_consistent stm) :
    stm_consistent (stm_kill stm).1 := by
  have h : 0 < stm.limit := Nat.lt_of_le_of_lt (Nat.zero_le _) hw.2.1
  exact ⟨Nat.zero_le _, h, h, (Nat.zero_mod _).symm⟩

theorem priv_stm_putUpdate_loop_consistent (q : List tsk_t) : ∀ (stm : stm_t),
    stm_consistent stm → stm.limit < UINT_MOD →
    stm_consistent (priv_stm_putUpdate_loop q stm).1 ∧
    (priv_stm_putUpdate_loop q stm).1.limit = stm.limit ∧
    (priv_stm_putUpdate_loop q stm).1.count ≤ stm.count := by
  induction q with
  | nil => intro stm hw _; exact ⟨hw, rfl, Nat.le_refl _⟩
  | cons t q ih =>
    intro stm hw hl
    by_cases h1 : stm.count > 0
    · by_cases h2 : t.stm_size ≤ stm.count
      · obtain ⟨g1, g2, g3, -⟩ := priv_stm_get_spec t.stm_size stm t.stm_data 0 hw hl h2
        obtain ⟨i1, i2, i3⟩ := ih (priv_stm_get stm t.stm_data 0 t.stm_size).1 g1
          (by rw [g3]; exact hl)
        simp only [priv_stm_putUpdate_loop, if_pos h1, if_pos h2]
        exact ⟨i1, by rw [i2, g3], by rw [g2] at i3; omega⟩
      · simp only [priv_stm_putUpdate_loop, if_pos h1, if_neg h2]
        exact ih stm hw hl
    · simp only [priv_stm_putUpdate_loop, if_neg h1]
      exact ⟨hw, trivial, Nat.le_refl _⟩

theorem priv_stm_getUpdate_loop_consistent (q : List tsk_t) : ∀ (stm : stm_t),
    stm_consistent stm → stm.limit + stm.limit < UINT_MOD →
    (∀ t ∈ q, t.stm_size ≤ stm.limit) →
    stm_consistent (priv_stm_getUpdate_loop q stm).1 ∧
    (priv_stm_getUpdate_loop q stm).1.limit = stm.limit ∧
    stm.count ≤ (priv_stm_getUpdate_loop q stm).1.count := by
  induction q with
  | nil => intro stm hw _ _; exact ⟨hw, rfl, Nat.le_refl _⟩
  | cons t q ih =>
    intro stm hw hl hs
    have hsz := hs t (List.mem_cons_self t q)
    have hc := hw.1
    have hmod : (stm.count + t.stm_size) % UINT_MOD = stm.count + t.stm_size :=
      Nat.mod_eq_of_lt (by omega)
    by_cases h1 : stm.count + t.stm_size ≤ stm.limit
    · obtain ⟨p1, p2, p3, -⟩ :=
        priv_stm_put_spec t.stm_data t.stm_size stm 0 hw (by omega) h1
      obtain ⟨i1, i2, i3⟩ := ih (priv_stm_put stm t.stm_data 0 t.stm_size) p1
        (by rw [p3]; exact hl)
        (by intro u hu; rw [p3]; exact hs u (List.mem_cons_of_mem t hu))
      simp only [priv_stm_getUpdate_loop, hmod, if_pos h1]
      exact ⟨i1, by rw [i2, p3], by rw [p2] at i3; omega⟩
    · simp only [priv_stm_getUpdate_loop, hmod, if_neg h1]
      exact ⟨hw, trivial, Nat.le_refl _⟩

theorem stm_give_consistent {stm : stm_t} (data : Mem) (size : Nat) (hw : stm_consistent stm)
    (hl : stm.limit < UINT_MOD) : stm_consistent (stm_give stm data size).stm := by
  by_cases h1 : size > 0 ∧ size ≤ stm.limit
  · by_cases h2 : size ≤ priv_stm_space stm
    · have hfit : stm.count + size ≤ stm.limit := by
        have hc := hw.1
        unfold priv_stm_space u_sub at h2
        split_ifs at h2 <;> omega
      obtain ⟨p1, -, p3, -⟩ := priv_stm_put_spec data size stm 0 hw hl hfit
      simp only [stm_give, if_pos h1, if_pos h2, priv_stm_putUpdate]
      exact (priv_stm_putUpdate_loop_consistent _ _ p1 (by rw [p3]; exact hl)).1
    · simp only [stm_give, if_pos h1, if_neg h2]
      exact hw
  · simp only [stm_give, if_neg h1]
    exact hw

theorem stm_take_consistent {stm : stm_t} (data : Mem) (size : Nat) (hw : stm_consistent stm)
    (hl : stm.limit + stm.limit < UINT_MOD) (hs : ∀ t ∈ stm.queue, t.stm_size ≤ stm.limit) :
    stm_consistent (stm_take stm data size).stm := by
  by_cases h1 : size > 0
  · by_cases h2 : stm.count > 0
    · by_cases h3 : size ≤ priv_stm_count stm
      · obtain ⟨g1, -, g3, -, g5, -⟩ := priv_stm_get_spec size stm data 0 hw (by omega) h3
        simp only [stm_take, if_pos h1, if_pos h2, if_pos h3, priv_stm_getUpdate]
        exact (priv_stm_getUpdate_loop_consistent _ _ g1 (by rw [g3]; exact hl)
          (by rw [g5, g3]; exact hs)).1
      · simp only [stm_take, if_pos h1, if_pos h2, if_neg h3]
        exact hw
    · simp only [stm_take, if_pos h1, if_neg h2]
      exact hw
  · simp only [stm_take, if_neg h1]
    exact hw

/-- C5 at the failing input: a full buffer of capacity 4294967295 is
consistent and its one queued producer asks for 2 bytes, `0 < 2 ≤ limit`.
`stm_take(size = 1)` succeeds and leaves count = 4294967294; in the post-read
drain the `unsigned` sum `count + size` wraps to 0, the producer is admitted,
and its two bytes take count through 4294967295 to 0: the object ends with
`count = 0`, `first = 1`, `next = 2`, which is not consistent. -/
theorem stm_take_count_wraps :
    stm_consistent stm_demo_huge ∧ stm_demo_huge.limit < UINT_MOD ∧
    (∀ t ∈ stm_demo_huge.queue, 0 < t.stm_size ∧ t.stm_size ≤ stm_demo_huge.limit) ∧
    (stm_take stm_demo_huge (mem_of []) 1).event = E_SUCCESS ∧
    (priv_stm_get stm_demo_huge (mem_of []) 0 1).1.count = 4294967294 ∧
    (priv_stm_put (priv_stm_get stm_demo_huge (mem_of []) 0 1).1 (mem_of [1, 2]) 0 1).count
      = 4294967295 ∧
    (stm_take stm_demo_huge (mem_of []) 1).woken.map (fun t => (t.id, t.event))
      = [(1, E_SUCCESS)] ∧
    (stm_take stm_demo_huge (mem_of []) 1).stm.count = 0 ∧
    (stm_take stm_demo_huge (mem_of []) 1).stm.first = 1 ∧
    (stm_take stm_demo_huge (mem_of []) 1).stm.next = 2 ∧
    ¬ stm_consistent (stm_take stm_demo_huge (mem_of []) 1).stm := by
  decide

/-! ### C11: the asymmetric-drain scenario -/

/-- C11 fails: in the capacity-4 buffer holding 1 byte with A (size 3) and B
(size 1) queued, `stm_give(size = 1)` does not return Success: it returns
Timeout, count stays 1, no task is woken and both stay queued. -/
theorem stm_asymmetric_give_refuted :
    (stm_give stm_demo_asym (mem_of [9]) 1).event = E_TIMEOUT ∧
    (stm_give stm_demo_asym (mem_of [9]) 1).event ≠ E_SUCCESS ∧
    (stm_give stm_demo_asym (mem_of [9]) 1).stm.count = 1 ∧
    (stm_give stm_demo_asym (mem_of [9]) 1).woken.length = 0 ∧
    (stm_give stm_demo_asym (mem_of [9]) 1).stm.queue.map (fun t => t.id) = [1, 2] := by
  decide

/-- C11 as the code has it: whenever bytes are buffered and a task is
queued, `priv_stm_space` is 0 and `stm_give` of any size returns Timeout,
leaves the object as it was and wakes nobody; so it does in the scenario. The
post-write drain itself, run on the scenario's buffer once it holds 2 bytes,
wakes A with Timeout, no byte copied to it, and then B with Success after
copying the oldest byte, leaving count = 1 and an empty wait queue. -/
theorem stm_asymmetric_give (stm : stm_t) (data : Mem) (size : Nat)
    (hcount : stm.count ≠ 0) (hqueue : stm.queue ≠ []) :
    priv_stm_space stm = 0 ∧
    (stm_give stm data size).event = E_TIMEOUT ∧ (stm_give stm data size).stm = stm ∧
    (stm_give stm data size).woken = [] ∧
    (priv_stm_putUpdate stm_demo_asym_two).2.map
      (fun t => (t.id, t.event, mem_read t.stm_data t.stm_size)) =
      [(1, E_TIMEOUT, [5, 5, 5]), (2, E_SUCCESS, [7])] ∧
    (priv_stm_putUpdate stm_demo_asym_two).1.count = 1 ∧
    (priv_stm_putUpdate stm_demo_asym_two).1.queue.length = 0 := by
  have hsp : priv_stm_space stm = 0 := by
    unfold priv_stm_space
    rw [if_neg hcount]
    cases hq : stm.queue with
    | nil => exact absurd hq hqueue
    | cons t q => rfl
  refine ⟨hsp, ?_, ?_, ?_, by decide, by decide, by decide⟩
  all_goals
    by_cases h1 : size > 0 ∧ size ≤ stm.limit
    · have h2 : ¬ size ≤ priv_stm_space stm := by rw [hsp]; omega
      simp only [stm_give, if_pos h1, if_neg h2]
    · simp only [stm_give, if_neg h1]

/-- The asymmetric-drain scenario: the give of one byte is refused. -/
theorem stm_asymmetric_give_witness :
    priv_stm_space stm_demo_asym = 0 ∧
    (stm_give stm_demo_asym (mem_of [9]) 1).event = E_TIMEOUT ∧
    (stm_give stm_demo_asym (mem_of [9]) 1).stm = stm_demo_asym :=
  have h := stm_asymmetric_give stm_demo_asym (mem_of [9]) 1 (by decide)
    (List.cons_ne_nil _ _)
  ⟨h.1, h.2.1, h.2.2.1⟩

/-! ### C12: zero-size and over-capacity blocking requests -/

theorem stm_blocking_size_zero (stm : stm_t) (cur : tsk_t) (data : Mem) (time : Nat)
    (wait : List tsk_t → tsk_t → Nat → List tsk_t) :
    priv_stm_wait stm cur data 0 time wait =
      .returned { event := E_TIMEOUT, stm := stm, data := data, woken := [] } ∧
    priv_stm_send stm cur data 0 time wait =
      .returned { event := E_TIMEOUT, stm := stm, data := data, woken := [] } := by
  constructor
  · simp only [priv_stm_wait, gt_iff_lt, Nat.lt_irrefl, if_false]
  · have h : ¬ (0 > 0 ∧ 0 ≤ stm.limit) := by omega
    simp only [priv_stm_send, if_neg h]

theorem stm_blocking_over_capacity (stm : stm_t) (cur : tsk_t) (data : Mem) (size time : Nat)
    (wait : List tsk_t → tsk_t → Nat → List tsk_t) (hsize : stm.limit < size) :
    priv_stm_send stm cur data size time wait =
      .returned { event := E_TIMEOUT, stm := stm, data := data, woken := [] } ∧
    (0 < stm.count → stm.count ≤ stm.limit → priv_stm_wait stm cur data size time wait =
      .returned { event := E_TIMEOUT, stm := stm, data := data, woken := [] }) ∧
    (stm.count = 0 → priv_stm_wait stm cur data size time wait =
      .suspended { stm with queue := wait stm.queue { cur with stm_data := data, stm_size := size }
                                       time }) := by
  refine ⟨?_, ?_, ?_⟩
  · have h : ¬ (size > 0 ∧ size ≤ stm.limit) := by omega
    simp only [priv_stm_send, if_neg h]
  · intro h1 h2
    have h3 : size > 0 := by omega
    have h4 : stm.count > 0 := h1
    have h5 : ¬ size ≤ priv_stm_count stm := by unfold priv_stm_count; omega
    simp only [priv_stm_wait, if_pos h3, if_pos h4, if_neg h5]
  · intro h1
    have h3 : size > 0 := by omega
    have h4 : ¬ stm.count > 0 := by omega
    simp only [priv_stm_wait, if_pos h3, if_neg h4]

/-- C12 at the failing input: on the empty buffer of capacity 4,
`stm_waitFor` and `stm_waitUntil` with `size = 5 > limit` do not return
Timeout: they write the request (size 5) to the caller's record and suspend
the caller on the wait queue. `stm_sendFor` and `stm_sendUntil` with the same
size return Timeout at once and leave the queue empty. -/
theorem stm_wait_over_capacity_suspends :
    (stm_init 4 (mem_of [])).limit < 5 ∧
    (stm_waitFor (stm_init 4 (mem_of [])) tsk_demo_A (mem_of []) 5 10).is_suspended = true ∧
    (stm_waitFor (stm_init 4 (mem_of [])) tsk_demo_A (mem_of []) 5 10).stm.queue.map
      (fun t => (t.id, t.stm_size)) = [(1, 5)] ∧
    (stm_waitUntil (stm_init 4 (mem_of [])) tsk_demo_A (mem_of []) 5 10).is_suspended = true ∧
    (stm_waitUntil (stm_init 4 (mem_of [])) tsk_demo_A (mem_of []) 5 10).stm.queue.map
      (fun t => (t.id, t.stm_size)) = [(1, 5)] ∧
    (stm_sendFor (stm_init 4 (mem_of [])) tsk_demo_A (mem_of []) 5 10).is_suspended = false ∧
    (stm_sendFor (stm_init 4 (mem_of [])) tsk_demo_A (mem_of []) 5 10).stm.queue.length = 0 ∧
    (stm_sendUntil (stm_init 4 (mem_of [])) tsk_demo_A (mem_of []) 5 10).is_suspended = false := by
  decide

/-! ### C13: blocking and non-blocking variants -/

/-- C13 fails when bytes are buffered but fewer than asked for: on the
capacity-4 buffer holding 1 byte, `stm_waitFor(size = 2)` and
`stm_waitUntil(size = 2)` (`0 < 2 ≤ limit`, `size > count`) do not suspend:
they return at once, and the wait queue stays empty. -/
theorem stm_wait_short_refuted :
    (stm_waitFor stm_demo_one tsk_demo_A (mem_of []) 2 10).is_suspended = false ∧
    (stm_waitFor stm_demo_one tsk_demo_A (mem_of []) 2 10).stm.queue.length = 0 ∧
    (stm_waitUntil stm_demo_one tsk_demo_A (mem_of []) 2 10).is_suspended = false ∧
    (stm_take stm_demo_one (mem_of []) 2).event = E_TIMEOUT := by
  decide

/-- C13 as the code has it, for every state and every request with
`0 < size ≤ limit`: `stm_waitFor` / `stm_waitUntil` return what `stm_take`
returns whenever `count > 0` (Success when `size ≤ count`, otherwise Timeout
at once, without suspending), and stash (pointer, size) in the caller's
record and suspend at the tail of the wait queue exactly when `count = 0`;
`stm_sendFor` / `stm_sendUntil` return what `stm_give` returns when
`size ≤ space`, and otherwise stash the request and suspend. -/
theorem stm_blocking_decision (stm : stm_t) (cur : tsk_t) (data : Mem) (size time : Nat)
    (h0 : 0 < size) (hl : size ≤ stm.limit) :
    (0 < stm.count →
      stm_waitFor stm cur data size time = .returned (stm_take stm data size) ∧
      stm_waitUntil stm cur data size time = .returned (stm_take stm data size)) ∧
    (stm.count = 0 →
      stm_waitFor stm cur data size time =
        .suspended { stm with queue := stm.queue ++ [{ cur with stm_data := data,
                                                                stm_size := size }] } ∧
      stm_waitUntil stm cur data size time =
        .suspended { stm with queue := stm.queue ++ [{ cur with stm_data := data,
                                                                stm_size := size }] } ∧
      (stm_take stm data size).event = E_TIMEOUT) ∧
    (size ≤ priv_stm_space stm →
      stm_sendFor stm cur data size time = .returned (stm_give stm data size) ∧
      stm_sendUntil stm cur data size time = .returned (stm_give stm data size) ∧
      (stm_give stm data size).event = E_SUCCESS) ∧
    (¬ size ≤ priv_stm_space stm →
      stm_sendFor stm cur data size time =
        .suspended { stm with queue := stm.queue ++ [{ cur with stm_data := data,
                                                                stm_size := size }] } ∧
      stm_sendUntil stm cur data size time =
        .suspended { stm with queue := stm.queue ++ [{ cur with stm_data := data,
                                                                stm_size := size }] } ∧
      (stm_give stm data size).event = E_TIMEOUT) := by
  have hs : size > 0 := h0
  have hg : size > 0 ∧ size ≤ stm.limit := ⟨h0, hl⟩
  refine ⟨?_, ?_, ?_, ?_⟩
  · intro hc
    have hc1 : stm.count > 0 := hc
    by_cases h3 : size ≤ priv_stm_count stm
    · simp only [stm_waitFor, stm_waitUntil, priv_stm_wait, stm_take, if_pos hs, if_pos hc1,
        if_pos h3]
      exact ⟨trivial, trivial⟩
    · simp only [stm_waitFor, stm_waitUntil, priv_stm_wait, stm_take, if_pos hs, if_pos hc1,
        if_neg h3]
      exact ⟨trivial, trivial⟩
  · intro hc
    have hc1 : ¬ stm.count > 0 := by omega
    simp only [stm_waitFor, stm_waitUntil, priv_stm_wait, stm_take, if_pos hs, if_neg hc1,
      core_tsk_waitFor, core_tsk_waitUntil]
    exact ⟨trivial, trivial, trivial⟩
  · intro hsp
    simp only [stm_sendFor, stm_sendUntil, priv_stm_send, stm_give, if_pos hg, if_pos hsp]
    exact ⟨trivial, trivial, trivial⟩
  · intro hsp
    simp only [stm_sendFor, stm_sendUntil, priv_stm_send, stm_give, if_pos hg, if_neg hsp,
      core_tsk_waitFor, core_tsk_waitUntil]
    exact ⟨trivial, trivial, trivial⟩

/-- The request for 2 bytes on the buffer holding 1 byte returns what
`stm_take` returns, a Timeout. -/
theorem stm_blocking_decision_witness :
    stm_waitFor stm_demo_one tsk_demo_A (mem_of []) 2 10 =
      .returned (stm_take stm_demo_one (mem_of []) 2) ∧
    stm_waitUntil stm_demo_one tsk_demo_A (mem_of []) 2 10 =
      .returned (stm_take stm_demo_one (mem_of []) 2) :=
  (stm_blocking_decision stm_demo_one tsk_demo_A (mem_of []) 2 10 (by decide) (by decide)).1
    (by decide)

/-! ### C20: kill resets the stream buffer -/

/-- C20: after `stm_kill`, count, first and next are 0, every queued task has
been woken with Stopped (in queue order) and the wait queue is empty, while
limit, the data array and the resource marker are unchanged; the buffered
bytes are gone, `stm_count` is 0, `stm_space` is `limit`, and `stm_take` of
any size returns Timeout and changes nothing. -/
theorem stm_kill_resets (stm : stm_t) (dst : Mem) (size : Nat) :
    (stm_kill stm).1.count = 0 ∧ (stm_kill stm).1.first = 0 ∧ (stm_kill stm).1.next = 0 ∧
    (stm_kill stm).2 = stm.queue.map (fun t => { t with event := E_STOPPED }) ∧
    (∀ t ∈ (stm_kill stm).2, t.event = E_STOPPED) ∧
    (stm_kill stm).2.length = stm.queue.length ∧
    (stm_kill stm).1.queue = [] ∧
    (stm_kill stm).1.limit = stm.limit ∧ (stm_kill stm).1.data = stm.data ∧
    (stm_kill stm).1.res = stm.res ∧
    stm_contents (stm_kill stm).1 = [] ∧
    (stm_count (stm_kill stm).1).1 = 0 ∧ (stm_space (stm_kill stm).1).1 = stm.limit ∧
    (stm_take (stm_kill stm).1 dst size).event = E_TIMEOUT ∧
    (stm_take (stm_kill stm).1 dst size).stm = (stm_kill stm).1 ∧
    (stm_take (stm_kill stm).1 dst size).data = dst := by
  have hc : ¬ (stm_kill stm).1.count > 0 := by
    show ¬ (0 > 0)
    omega
  refine ⟨rfl, rfl, rfl, rfl, ?_, ?_, rfl, rfl, rfl, rfl, rfl, rfl, rfl, ?_, ?_, ?_⟩
  · intro t ht
    simp only [stm_kill, core_all_wakeup, core_tsk_wakeup, List.mem_map] at ht
    obtain ⟨u, -, hu⟩ := ht
    rw [← hu]
  · simp [stm_kill, core_all_wakeup]
  all_goals
    by_cases h1 : size > 0
    · simp only [stm_take, if_pos h1, if_neg hc]
    · simp only [stm_take, if_neg h1]

/-! ### C17: the ring buffer refines a bounded FIFO byte queue -/

theorem mem_read_length (m : Mem) (n : Nat) : (mem_read m n).length = n := by
  simp [mem_read]

/-- C17: on every consistent state with an empty wait queue, wherever `first`
and `next` sit, `stm_give(s, n)` returns Success iff `0 < n ≤ limit - count`
and then the buffered bytes are the old ones followed by `s[0..n)`; and
`stm_take(_, n)` returns Success iff `0 < n ≤ count` and then delivers the
first `n` buffered bytes and keeps the remaining `count - n`; a call that does
not succeed leaves the object as it was. Both calls are the operations of the
bounded FIFO byte queue on `stm_contents`. -/
theorem stm_refines_fifo (stm : stm_t) (src dst : Mem) (n : Nat)
    (hw : stm_consistent stm) (hl : stm.limit < UINT_MOD) (hq : stm.queue = []) :
    ((stm_give stm src n).event = E_SUCCESS ↔ 0 < n ∧ n ≤ stm.limit - stm.count) ∧
    fifo_give stm.limit (stm_contents stm) (mem_read src n) =
      (if (stm_give stm src n).event = E_SUCCESS
       then some (stm_contents (stm_give stm src n).stm) else none) ∧
    ((stm_give stm src n).event ≠ E_SUCCESS → (stm_give stm src n).stm = stm) ∧
    stm_consistent (stm_give stm src n).stm ∧ (stm_give stm src n).stm.queue = [] ∧
    ((stm_take stm dst n).event = E_SUCCESS ↔ 0 < n ∧ n ≤ stm.count) ∧
    fifo_take (stm_contents stm) n =
      (if (stm_take stm dst n).event = E_SUCCESS
       then some (mem_read (stm_take stm dst n).data n, stm_contents (stm_take stm dst n).stm)
       else none) ∧
    ((stm_take stm dst n).event ≠ E_SUCCESS →
      (stm_take stm dst n).stm = stm ∧ (stm_take stm dst n).data = dst) ∧
    stm_consistent (stm_take stm dst n).stm ∧ (stm_take stm dst n).stm.queue = [] := by
  have hgive : (0 < n ∧ n ≤ stm.limit - stm.count →
      (stm_give stm src n).event = E_SUCCESS ∧ stm_consistent (stm_give stm src n).stm ∧
      (stm_give stm src n).stm.queue = [] ∧
      stm_contents (stm_give stm src n).stm = stm_contents stm ++ mem_read src n) ∧
      (¬ (0 < n ∧ n ≤ stm.limit - stm.count) →
      (stm_give stm src n).event = E_TIMEOUT ∧ (stm_give stm src n).stm = stm) := by
    constructor
    · intro h
      obtain ⟨a1, a2, -, -, a5, -, a7⟩ := stm_give_nil src hw hl hq h.1 h.2
      exact ⟨a1, a2, a5, a7⟩
    · intro h
      have hsp := priv_stm_space_nil hq hw.1
      by_cases h1 : n > 0 ∧ n ≤ stm.limit
      · have h2 : ¬ n ≤ priv_stm_space stm := by rw [hsp]; omega
        simp only [stm_give, if_pos h1, if_neg h2]
        exact ⟨trivial, trivial⟩
      · simp only [stm_give, if_neg h1]
        exact ⟨trivial, trivial⟩
  have htake : (0 < n ∧ n ≤ stm.count →
      (stm_take stm dst n).event = E_SUCCESS ∧ stm_consistent (stm_take stm dst n).stm ∧
      (stm_take stm dst n).stm.queue = [] ∧
      stm_contents stm = mem_read (stm_take stm dst n).data n ++
        stm_contents (stm_take stm dst n).stm) ∧
      (¬ (0 < n ∧ n ≤ stm.count) →
      (stm_take stm dst n).event = E_TIMEOUT ∧ (stm_take stm dst n).stm = stm ∧
      (stm_take stm dst n).data = dst) := by
    constructor
    · intro h
      obtain ⟨b1, b2, -, -, b5, -, b7, -⟩ := stm_take_nil dst hw hl hq h.1 h.2
      exact ⟨b1, b2, b5, b7⟩
    · intro h
      by_cases h1 : n > 0
      · by_cases h2 : stm.count > 0
        · have h3 : ¬ n ≤ priv_stm_count stm := by unfold priv_stm_count; omega
          simp only [stm_take, if_pos h1, if_pos h2, if_neg h3]
          exact ⟨trivial, trivial, trivial⟩
        · simp only [stm_take, if_pos h1, if_neg h2]
          exact ⟨trivial, trivial, trivial⟩
      · simp only [stm_take, if_neg h1]
        exact ⟨trivial, trivial, trivial⟩
  have hlen := stm_contents_length stm
  have hnts : ¬ (E_TIMEOUT = E_SUCCESS) := by decide
  refine ⟨?_, ?_, ?_, ?_, ?_, ?_, ?_, ?_, ?_, ?_⟩
  · constructor
    · intro h
      by_contra hg
      rw [(hgive.2 hg).1] at h
      exact hnts h
    · intro hg
      exact (hgive.1 hg).1
  · by_cases hg : 0 < n ∧ n ≤ stm.limit - stm.count
    · obtain ⟨g1, -, -, g4⟩ := hgive.1 hg
      rw [if_pos g1, g4]
      unfold fifo_give
      rw [mem_read_length, hlen, if_pos hg]
    · have hne : ¬ (stm_give stm src n).event = E_SUCCESS := by
        rw [(hgive.2 hg).1]; exact hnts
      rw [if_neg hne]
      unfold fifo_give
      rw [mem_read_length, hlen, if_neg hg]
  · intro hne
    by_cases hg : 0 < n ∧ n ≤ stm.limit - stm.count
    · exact absurd (hgive.1 hg).1 hne
    · exact (hgive.2 hg).2
  · by_cases hg : 0 < n ∧ n ≤ stm.limit - stm.count
    · exact (hgive.1 hg).2.1
    · rw [(hgive.2 hg).2]; exact hw
  · by_cases hg : 0 < n ∧ n ≤ stm.limit - stm.count
    · exact (hgive.1 hg).2.2.1
    · rw [(hgive.2 hg).2]; exact hq
  · constructor
    · intro h
      by_contra ht
      rw [(htake.2 ht).1] at h
      exact hnts h
    · intro ht
      exact (htake.1 ht).1
  · by_cases ht : 0 < n ∧ n ≤ stm.count
    · obtain ⟨g1, -, -, g4⟩ := htake.1 ht
      rw [if_pos g1]
      unfold fifo_take
      rw [hlen, if_pos ht]
      have e1 : (stm_contents stm).take n = mem_read (stm_take stm dst n).data n := by
        rw [g4]; exact List.take_left' (mem_read_length _ _)
      have e2 : (stm_contents stm).drop n = stm_contents (stm_take stm dst n).stm := by
        rw [g4]; exact List.drop_left' (mem_read_length _ _)
      rw [e1, e2]
    · have hne : ¬ (stm_take stm dst n).event = E_SUCCESS := by
        rw [(htake.2 ht).1]; exact hnts
      rw [if_neg hne]
      unfold fifo_take
      rw [hlen, if_neg ht]
  · intro hne
    by_cases ht : 0 < n ∧ n ≤ stm.count
    · exact absurd (htake.1 ht).1 hne
    · exact (htake.2 ht).2
  · by_cases ht : 0 < n ∧ n ≤ stm.count
    · exact (htake.1 ht).2.1
    · rw [(htake.2 ht).2.1]; exact hw
  · by_cases ht : 0 < n ∧ n ≤ stm.count
    · exact (htake.1 ht).2.2.1
    · rw [(htake.2 ht).2.1]; exact hq

/-- The refinement on the buffer whose indices sit at 6: giving four bytes
and taking them again wraps past the end of the array. -/
theorem stm_refines_fifo_witness :
    fifo_give stm_demo_wrap.limit (stm_contents stm_demo_wrap)
        (mem_read (mem_of [65, 66, 67, 68]) 4) =
      some (stm_contents (stm_give stm_demo_wrap (mem_of [65, 66, 67, 68]) 4).stm) ∧
    stm_contents (stm_give stm_demo_wrap (mem_of [65, 66, 67, 68]) 4).stm = [65, 66, 67, 68] :=
  have h := stm_refines_fifo stm_demo_wrap (mem_of [65, 66, 67, 68]) (mem_of []) 4
    (by decide) (by decide) rfl
  ⟨h.2.1.trans (if_pos (by decide)), by decide⟩

/-! ### C16: the post-write drain -/

theorem priv_stm_get_mem {stm : stm_t} (dst : Mem) {n : Nat} (hw : stm_consistent stm)
    (hl : stm.limit < UINT_MOD) (hn : n ≤ stm.count) :
    (priv_stm_get stm dst 0 n).2 = mem_write dst ((stm_contents stm).take n) ∧
    stm_contents (priv_stm_get stm dst 0 n).1 = (stm_contents stm).drop n := by
  obtain ⟨-, -, -, -, -, -, -, g8, g9⟩ := priv_stm_get_spec n stm dst 0 hw hl hn
  have hlen : ((List.range n).map (fun k => (priv_stm_get stm dst 0 n).2 (0 + k))).length = n := by
    simp
  have e1 : (stm_contents stm).take n =
      (List.range n).map (fun k => (priv_stm_get stm dst 0 n).2 (0 + k)) := by
    rw [g8]; exact List.take_left' hlen
  have e2 : (stm_contents stm).drop n = stm_contents (priv_stm_get stm dst 0 n).1 := by
    rw [g8]; exact List.drop_left' hlen
  refine ⟨?_, e2.symm⟩
  funext i
  unfold mem_write
  rw [e1, hlen]
  by_cases hi : i < n
  · rw [if_pos hi]
    simp [List.getElem?_range hi]
  · rw [if_neg hi]
    exact g9 i (Or.inr (by omega))

theorem priv_stm_putUpdate_loop_spec (q : List tsk_t) : ∀ (stm : stm_t),
    stm_consistent stm → stm.limit < UINT_MOD →
    stm_contents (priv_stm_putUpdate_loop q stm).1 =
      (spec_post_write_drain q (stm_contents stm)).1 ∧
    (priv_stm_putUpdate_loop q stm).1.queue = (spec_post_write_drain q (stm_contents stm)).2.1 ∧
    (priv_stm_putUpdate_loop q stm).2 = (spec_post_write_drain q (stm_contents stm)).2.2 := by
  induction q with
  | nil => intro stm _ _; exact ⟨rfl, rfl, rfl⟩
  | cons t q ih =>
    intro stm hw hl
    have hlen := stm_contents_length stm
    by_cases h1 : stm.count > 0
    · have h1s : 0 < (stm_contents stm).length := by rw [hlen]; exact h1
      by_cases h2 : t.stm_size ≤ stm.count
      · have h2s : t.stm_size ≤ (stm_contents stm).length := by rw [hlen]; exact h2
        obtain ⟨g1, -, g3, -⟩ := priv_stm_get_spec t.stm_size stm t.stm_data 0 hw hl h2
        obtain ⟨m1, m2⟩ := priv_stm_get_mem t.stm_data hw hl h2
        obtain ⟨i1, i2, i3⟩ := ih (priv_stm_get stm t.stm_data 0 t.stm_size).1 g1
          (by rw [g3]; exact hl)
        simp only [priv_stm_putUpdate_loop, spec_post_write_drain, if_pos h1, if_pos h2,
          if_pos h1s, if_pos h2s]
        rw [m2] at i1 i2 i3
        refine ⟨i1, i2, ?_⟩
        rw [i3, m1]
        rfl
      · have h2s : ¬ t.stm_size ≤ (stm_contents stm).length := by rw [hlen]; exact h2
        obtain ⟨i1, i2, i3⟩ := ih stm hw hl
        simp only [priv_stm_putUpdate_loop, spec_post_write_drain, if_pos h1, if_neg h2,
          if_pos h1s, if_neg h2s]
        refine ⟨i1, i2, ?_⟩
        rw [i3]
        rfl
    · have h1s : ¬ 0 < (stm_contents stm).length := by rw [hlen]; exact h1
      simp only [priv_stm_putUpdate_loop, spec_post_write_drain, if_neg h1, if_neg h1s]
      exact ⟨rfl, trivial, trivial⟩

theorem priv_stm_putUpdate_loop_queue (q : List tsk_t) : ∀ (stm : stm_t),
    (priv_stm_putUpdate_loop q stm).1.queue = q.drop (priv_stm_putUpdate_loop q stm).2.length ∧
    (priv_stm_putUpdate_loop q stm).2.length ≤ q.length ∧
    ((priv_stm_putUpdate_loop q stm).1.queue = [] ∨ (priv_stm_putUpdate_loop q stm).1.count = 0) ∧
    (∀ w ∈ (priv_stm_putUpdate_loop q stm).2, w.event = E_SUCCESS ∨ w.event = E_TIMEOUT) ∧
    (priv_stm_putUpdate_loop q stm).2.map (fun w => (w.id, w.stm_size)) =
      (q.take (priv_stm_putUpdate_loop q stm).2.length).map (fun w => (w.id, w.stm_size)) := by
  induction q with
  | nil =>
    intro stm
    exact ⟨rfl, Nat.le_refl _, Or.inl rfl, fun w hw => absurd hw (List.not_mem_nil w), rfl⟩
  | cons t q ih =>
    intro stm
    by_cases h1 : stm.count > 0
    · by_cases h2 : t.stm_size ≤ stm.count
      · obtain ⟨i1, i2, i3, i4, i5⟩ := ih (priv_stm_get stm t.stm_data 0 t.stm_size).1
        simp only [priv_stm_putUpdate_loop, if_pos h1, if_pos h2, List.length_cons,
          List.drop_succ_cons, List.take_succ_cons, List.map_cons]
        refine ⟨i1, by omega, i3, ?_, ?_⟩
        · intro w hw
          rcases List.mem_cons.mp hw with h | h
          · rw [h]; exact Or.inl rfl
          · exact i4 w h
        · rw [i5]; rfl
      · obtain ⟨i1, i2, i3, i4, i5⟩ := ih stm
        simp only [priv_stm_putUpdate_loop, if_pos h1, if_neg h2, List.length_cons,
          List.drop_succ_cons, List.take_succ_cons, List.map_cons]
        refine ⟨i1, by omega, i3, ?_, ?_⟩
        · intro w hw
          rcases List.mem_cons.mp hw with h | h
          · rw [h]; exact Or.inr rfl
          · exact i4 w h
        · rw [i5]; rfl
    · simp only [priv_stm_putUpdate_loop, if_neg h1]
      refine ⟨rfl, Nat.zero_le _, Or.inr (by show stm.count = 0; omega), ?_, rfl⟩
      intro w hw
      exact absurd hw (List.not_mem_nil w)

/-- C16: on every consistent state `priv_stm_putUpdate` is the post-write
drain of the specification on the buffered bytes: front to back while bytes
are buffered, a consumer whose size fits gets exactly its `size` oldest bytes
and Success, any other gets no byte and Timeout, and the pass continues. On
return the wait queue is empty or count is 0, every woken consumer has
Success or Timeout, the woken consumers are the front of the original queue
in order, and the consumers still queued are the unchanged rest of it. -/
theorem stm_post_write_drain (stm : stm_t) (hw : stm_consistent stm)
    (hl : stm.limit < UINT_MOD) :
    stm_contents (priv_stm_putUpdate stm).1 =
      (spec_post_write_drain stm.queue (stm_contents stm)).1 ∧
    (priv_stm_putUpdate stm).1.queue = (spec_post_write_drain stm.queue (stm_contents stm)).2.1 ∧
    (priv_stm_putUpdate stm).2 = (spec_post_write_drain stm.queue (stm_contents stm)).2.2 ∧
    (priv_stm_putUpdate stm).1.queue = stm.queue.drop (priv_stm_putUpdate stm).2.length ∧
    ((priv_stm_putUpdate stm).1.queue = [] ∨ (priv_stm_putUpdate stm).1.count = 0) ∧
    (∀ w ∈ (priv_stm_putUpdate stm).2, w.event = E_SUCCESS ∨ w.event = E_TIMEOUT) ∧
    (priv_stm_putUpdate stm).2.map (fun w => (w.id, w.stm_size)) =
      (stm.queue.take (priv_stm_putUpdate stm).2.length).map (fun w => (w.id, w.stm_size)) ∧
    stm_consistent (priv_stm_putUpdate stm).1 := by
  obtain ⟨s1, s2, s3⟩ := priv_stm_putUpdate_loop_spec stm.queue stm hw hl
  obtain ⟨q1, -, q3, q4, q5⟩ := priv_stm_putUpdate_loop_queue stm.queue stm
  exact ⟨s1, s2, s3, q1, q3, q4, q5,
    (priv_stm_putUpdate_loop_consistent stm.queue stm hw hl).1⟩

/-- The drain on three buffered bytes 7, 9, 11 (wrapping past the end of the
array) and consumers asking for 2, 3 and 1 bytes: the first gets 7, 9, the
second times out, the third gets 11, and nothing is left. -/
theorem stm_post_write_drain_witness :
    (priv_stm_putUpdate stm_demo_drain).2.map
      (fun w => (w.id, w.event, mem_read w.stm_data w.stm_size)) =
      [(1, E_SUCCESS, [7, 9]), (2, E_TIMEOUT, [0, 0, 0]), (3, E_SUCCESS, [11])] ∧
    (priv_stm_putUpdate stm_demo_drain).2 =
      (spec_post_write_drain stm_demo_drain.queue (stm_contents stm_demo_drain)).2.2 ∧
    ((priv_stm_putUpdate stm_demo_drain).1.queue = [] ∨
      (priv_stm_putUpdate stm_demo_drain).1.count = 0) :=
  have h := stm_post_write_drain stm_demo_drain (by decide) (by decide)
  ⟨by decide, h.2.2.1, h.2.2.2.2.1⟩

/-! ### C15: the post-read drain -/

theorem priv_stm_put_fields (data : Mem) (n : Nat) : ∀ (stm : stm_t) (p : Nat),
    (priv_stm_put stm data p n).limit = stm.limit ∧
    (priv_stm_put stm data p n).queue = stm.queue ∧
    (priv_stm_put stm data p n).res = stm.res ∧
    (priv_stm_put stm data p n).first = stm.first := by
  induction n with
  | zero => intro stm p; exact ⟨rfl, rfl, rfl, rfl⟩
  | succ n ih =>
    intro stm p
    obtain ⟨i1, i2, i3, i4⟩ := ih (priv_stm_putc stm (data p)) (p + 1)
    obtain ⟨h1, h2, h3, h4⟩ := priv_stm_putc_fields stm (data p)
    simp only [priv_stm_put]
    exact ⟨i1.trans h3, i2.trans h1, i3.trans h2, i4.trans h4⟩

theorem priv_stm_getUpdate_loop_queue (q : List tsk_t) : ∀ (stm : stm_t),
    (priv_stm_getUpdate_loop q stm).1.queue = q.drop (priv_stm_getUpdate_loop q stm).2.length ∧
    (priv_stm_getUpdate_loop q stm).2.length ≤ q.length ∧
    (priv_stm_getUpdate_loop q stm).2 =
      (q.take (priv_stm_getUpdate_loop q stm).2.length).map
        (fun t => core_tsk_wakeup t E_SUCCESS) ∧
    (priv_stm_getUpdate_loop q stm).1.limit = stm.limit := by
  induction q with
  | nil => intro stm; exact ⟨rfl, Nat.le_refl _, rfl, rfl⟩
  | cons t q ih =>
    intro stm
    by_cases h1 : (stm.count + t.stm_size) % UINT_MOD ≤ stm.limit
    · obtain ⟨i1, i2, i3, i4⟩ := ih (priv_stm_put stm t.stm_data 0 t.stm_size)
      simp only [priv_stm_getUpdate_loop, if_pos h1, List.length_cons, List.drop_succ_cons,
        List.take_succ_cons, List.map_cons]
      refine ⟨i1, by omega, ?_, i4.trans (priv_stm_put_fields _ _ _ _).1⟩
      rw [← i3]
    · simp only [priv_stm_getUpdate_loop, if_neg h1]
      exact ⟨rfl, Nat.zero_le _, rfl, trivial⟩

theorem priv_stm_getUpdate_loop_spec (q : List tsk_t) : ∀ (stm : stm_t),
    stm_consistent stm → stm.limit + stm.limit < UINT_MOD →
    (∀ t ∈ q, t.stm_size ≤ stm.limit) →
    stm_contents (priv_stm_getUpdate_loop q stm).1 =
      (spec_post_read_drain stm.limit q (stm_contents stm)).1 ∧
    (priv_stm_getUpdate_loop q stm).1.queue =
      (spec_post_read_drain stm.limit q (stm_contents stm)).2.1 ∧
    (priv_stm_getUpdate_loop q stm).2 =
      (spec_post_read_drain stm.limit q (stm_contents stm)).2.2 := by
  induction q with
  | nil => intro stm _ _ _; exact ⟨rfl, rfl, rfl⟩
  | cons t q ih =>
    intro stm hw hl hs
    have hlen := stm_contents_length stm
    have hsz := hs t (List.mem_cons_self t q)
    have hc := hw.1
    have hmod : (stm.count + t.stm_size) % UINT_MOD = stm.count + t.stm_size :=
      Nat.mod_eq_of_lt (by omega)
    by_cases h1 : stm.count + t.stm_size ≤ stm.limit
    · have h1s : (stm_contents stm).length + t.stm_size ≤ stm.limit := by rw [hlen]; exact h1
      obtain ⟨p1, -, p3, -, -, -, p7⟩ :=
        priv_stm_put_spec t.stm_data t.stm_size stm 0 hw (by omega) h1
      obtain ⟨i1, i2, i3⟩ := ih (priv_stm_put stm t.stm_data 0 t.stm_size) p1
        (by rw [p3]; exact hl)
        (by intro u hu; rw [p3]; exact hs u (List.mem_cons_of_mem t hu))
      have hbytes : stm_contents (priv_stm_put stm t.stm_data 0 t.stm_size) =
          stm_contents stm ++ mem_read t.stm_data t.stm_size := by
        rw [p7]
        simp [mem_read]
      rw [hbytes, p3] at i1 i2 i3
      simp only [priv_stm_getUpdate_loop, spec_post_read_drain, hmod, if_pos h1, if_pos h1s]
      refine ⟨i1, i2, ?_⟩
      rw [i3]
      rfl
    · have h1s : ¬ (stm_contents stm).length + t.stm_size ≤ stm.limit := by rw [hlen]; exact h1
      simp only [priv_stm_getUpdate_loop, spec_post_read_drain, hmod, if_neg h1, if_neg h1s]
      exact ⟨rfl, trivial, trivial⟩

/-- C15 at the failing input: the buffer of capacity 4294967295 holds
4294967294 bytes and is consistent, and the one queued producer asks for 2
bytes, `0 < 2 ≤ limit`. Its bytes do not fit, `count + 2 > limit`, so the
longest prefix of producers that fits is empty and nobody is to be served.
`priv_stm_getUpdate` wakes the producer with Success all the same, because
the `unsigned` sum `count + size` wraps to 0, and leaves count = 0 with an
empty wait queue. -/
theorem stm_post_read_drain_wraps :
    stm_consistent stm_demo_huge_read ∧ stm_demo_huge_read.limit < UINT_MOD ∧
    stm_demo_huge_read.queue.map (fun t => (t.id, t.stm_size)) = [(1, 2)] ∧
    (∀ t ∈ stm_demo_huge_read.queue, 0 < t.stm_size ∧ t.stm_size ≤ stm_demo_huge_read.limit) ∧
    stm_demo_huge_read.count = 4294967294 ∧
    stm_demo_huge_read.limit < stm_demo_huge_read.count + 2 ∧
    (stm_demo_huge_read.count + 2) % UINT_MOD = 0 ∧
    (priv_stm_getUpdate stm_demo_huge_read).2.map (fun t => (t.id, t.event))
      = [(1, E_SUCCESS)] ∧
    (priv_stm_getUpdate stm_demo_huge_read).1.queue.length = 0 ∧
    (priv_stm_getUpdate stm_demo_huge_read).1.count = 0 ∧
    ¬ stm_consistent (priv_stm_getUpdate stm_demo_huge_read).1 := by
  decide

/-! ### C18: termination -/

theorem priv_stm_put_steps (data : Mem) (n : Nat) : ∀ (stm : stm_t) (p : Nat),
    priv_stm_put stm data p n =
      (List.range n).foldl (fun s k => priv_stm_putc s (data (p + k))) stm := by
  induction n with
  | zero => intro stm p; rfl
  | succ n ih =>
    intro stm p
    rw [List.range_succ_eq_map, List.foldl_cons, List.foldl_map]
    simp only [priv_stm_put]
    rw [ih (priv_stm_putc stm (data p)) (p + 1)]
    have hf : (fun s k => priv_stm_putc s (data (p + 1 + k))) =
        (fun (s : stm_t) (k : Nat) => priv_stm_putc s (data (p + Nat.succ k))) := by
      funext s k
      rw [show p + 1 + k = p + Nat.succ k by omega]
    rw [hf]
    rfl

theorem priv_stm_get_steps (n : Nat) : ∀ (stm : stm_t) (dst : Mem) (p : Nat),
    priv_stm_get stm dst p n =
      (List.range n).foldl
        (fun (s : stm_t × Mem) k =>
          ((priv_stm_getc s.1).2, Function.update s.2 (p + k) (priv_stm_getc s.1).1))
        (stm, dst) := by
  induction n with
  | zero => intro stm dst p; rfl
  | succ n ih =>
    intro stm dst p
    rw [List.range_succ_eq_map, List.foldl_cons, List.foldl_map]
    simp only [priv_stm_get]
    rw [ih (priv_stm_getc stm).2 (Function.update dst p (priv_stm_getc stm).1) (p + 1)]
    have hf : (fun (s : stm_t × Mem) k =>
          ((priv_stm_getc s.1).2, Function.update s.2 (p + 1 + k) (priv_stm_getc s.1).1)) =
        (fun (s : stm_t × Mem) (k : Nat) =>
          ((priv_stm_getc s.1).2, Function.update s.2 (p + Nat.succ k) (priv_stm_getc s.1).1)) := by
      funext s k
      rw [show p + 1 + k = p + Nat.succ k by omega]
    rw [hf]
    rfl

theorem lst_scan_short (lst : lst_t) (c : List Nat) : ∀ (fuel : Nat) (ptr : que_ptr),
    is_chain lst.link (que_next lst ptr) c → fuel ≤ c.length → lst_scan lst fuel ptr = none := by
  induction c with
  | nil =>
    intro fuel ptr _ hf
    have h0 : fuel = 0 := by simpa using hf
    rw [h0]
    rfl
  | cons n c ih =>
    intro fuel ptr h hf
    cases fuel with
    | zero => rfl
    | succ f =>
      obtain ⟨h1, h2, h3⟩ := h
      have h0 : que_next lst ptr ≠ 0 := by rw [h1]; exact h2
      simp only [lst_scan, if_pos h0]
      exact ih f (.node (que_next lst ptr)) (by rw [h1]; exact h3)
        (by simp only [List.length_cons] at hf; omega)

/-- C18: every operation returns. Each pass of the loop of
`priv_stm_getUpdate` and of `priv_stm_putUpdate` wakes exactly one task, which
leaves the queue, so the number of passes is the number of tasks woken: it is
at most the length of the wait queue on entry, and the queue left is the
original one without that many front tasks. `priv_stm_put` and `priv_stm_get`
are exactly `size` steps of `priv_stm_putc` / `priv_stm_getc`. On every
acyclic null-terminated chain `c` the tail scan of `lst_give` ends after
exactly `|c|` moves of `ptr` (`|c| + 1` tests of `ptr->next`: with that much
fuel it ends, with less it does not), and `lst_give` returns. -/
theorem stm_lst_total (stm : stm_t) (data dst : Mem) (size : Nat) (lst : lst_t) (d : Nat) :
    (priv_stm_getUpdate stm).2.length ≤ stm.queue.length ∧
    (priv_stm_getUpdate stm).1.queue = stm.queue.drop (priv_stm_getUpdate stm).2.length ∧
    (priv_stm_putUpdate stm).2.length ≤ stm.queue.length ∧
    (priv_stm_putUpdate stm).1.queue = stm.queue.drop (priv_stm_putUpdate stm).2.length ∧
    priv_stm_put stm data 0 size =
      (List.range size).foldl (fun s k => priv_stm_putc s (data (0 + k))) stm ∧
    priv_stm_get stm dst 0 size =
      (List.range size).foldl
        (fun (s : stm_t × Mem) k =>
          ((priv_stm_getc s.1).2, Function.update s.2 (0 + k) (priv_stm_getc s.1).1))
        (stm, dst) ∧
    (List.range size).length = size ∧
    (∀ c, lst_chain lst c →
      (∃ ptr, lst_scan lst (c.length + 1) .head = some ptr) ∧
      lst_scan lst c.length .head = none ∧
      ∃ r, lst_give (c.length + 1) lst d = some r) := by
  obtain ⟨g1, g2, -, -⟩ := priv_stm_getUpdate_loop_queue stm.queue stm
  obtain ⟨p1, p2, -, -, -⟩ := priv_stm_putUpdate_loop_queue stm.queue stm
  refine ⟨g2, g1, p2, p1, priv_stm_put_steps data size stm 0, priv_stm_get_steps size stm dst 0,
    List.length_range size, ?_⟩
  intro c hc
  have hs := lst_scan_spec lst c (c.length + 1) .head hc.1 (Nat.lt_succ_self _)
  refine ⟨⟨_, hs⟩, lst_scan_short lst c c.length .head hc.1 (Nat.le_refl _), ?_⟩
  cases hq : lst.queue with
  | nil =>
    simp only [lst_give, hq, core_one_wakeup, hs]
    exact ⟨_, rfl⟩
  | cons t q => exact ⟨_, lst_give_cons hq _ _⟩

/-- The tail scan on the chain of two nodes ends with 3 tests and not with 2. -/
theorem stm_lst_total_witness :
    lst_chain lst_demo_two [3, 7] ∧
    lst_scan lst_demo_two 3 .head = some (.node 7) ∧
    lst_scan lst_demo_two 2 .head = none ∧
    ∃ r, lst_give 3 lst_demo_two 10 = some r :=
  have hc : lst_chain lst_demo_two [3, 7] :=
    ⟨⟨rfl, by decide, rfl, by decide, rfl⟩, by decide⟩
  have h := (stm_lst_total stm_demo_drain (mem_of []) (mem_of []) 2 lst_demo_two 10).2.2.2.2.2.2.2
    [3, 7] hc
  ⟨hc, by decide, h.2.1, h.2.2⟩

/-! ### C14: chain well-formedness -/

theorem is_chain_congr {link link2 : Nat → Nat} (c : List Nat) :
    ∀ (a : Nat), (∀ n ∈ c, link2 n = link n) → is_chain link a c → is_chain link2 a c := by
  induction c with
  | nil => intro a _ h; exact h
  | cons n c ih =>
    intro a hl h
    obtain ⟨h1, h2, h3⟩ := h
    refine ⟨h1, h2, ?_⟩
    rw [hl n (List.mem_cons_self n c)]
    exact ih (link n) (fun m hm => hl m (List.mem_cons_of_mem n hm)) h3

theorem is_chain_ne_zero {link : Nat → Nat} (c : List Nat) :
    ∀ (a : Nat), is_chain link a c → ∀ n ∈ c, n ≠ 0 := by
  induction c with
  | nil => intro a _ n hn; cases hn
  | cons m c ih =>
    intro a h n hn
    obtain ⟨-, h2, h3⟩ := h
    rcases List.mem_cons.mp hn with h | h
    · rw [h]; exact h2
    · exact ih (link m) h3 n h

theorem is_chain_last_link {link : Nat → Nat} (c : List Nat) :
    ∀ (a last : Nat), is_chain link a c → c.getLast? = some last → link last = 0 := by
  induction c with
  | nil => intro a last _ h; simp at h
  | cons n c ih =>
    intro a last h hlast
    obtain ⟨-, -, h3⟩ := h
    cases c with
    | nil =>
      simp only [List.getLast?_singleton, Option.some.injEq] at hlast
      rw [← hlast]
      exact h3
    | cons m c =>
      rw [List.getLast?_cons_cons] at hlast
      exact ih (link n) last h3 hlast

theorem is_chain_cut {link link2 : Nat → Nat} {node : Nat} (post : List Nat) (hn : node ≠ 0)
    (hnode : link2 node = 0) :
    ∀ (pre : List Nat) (a : Nat), (∀ n ∈ pre, link2 n = link n) →
      is_chain link a (pre ++ node :: post) → is_chain link2 a (pre ++ [node]) := by
  intro pre
  induction pre with
  | nil =>
    intro a _ h
    exact ⟨h.1, hn, hnode⟩
  | cons n pre ih =>
    intro a hl h
    obtain ⟨h1, h2, h3⟩ := h
    refine ⟨h1, h2, ?_⟩
    rw [hl n (List.mem_cons_self n pre)]
    exact ih (link n) (fun m hm => hl m (List.mem_cons_of_mem n hm)) h3

theorem lst_give_scan_form {lst : lst_t} {c : List Nat} {fuel : Nat} (d : Nat)
    (hq : lst.queue = []) (hc : is_chain lst.link lst.head c) (hf : c.length < fuel) :
    (c = [] → lst_give fuel lst d =
      some ({ lst with head := d - 1, link := Function.update lst.link (d - 1) 0 }, [])) ∧
    (∀ last, c.getLast? = some last → lst_give fuel lst d =
      some ({ lst with link := Function.update (Function.update lst.link last (d - 1))
                                  (d - 1) 0 }, [])) := by
  have hscan := lst_scan_spec lst c fuel .head hc hf
  constructor
  · intro hnil
    rw [hnil] at hscan
    simp only [lst_give, hq, core_one_wakeup, hscan, List.getLast?_nil, que_set_next, que_next]
  · intro last hlast
    rw [hlast] at hscan
    simp only [lst_give, hq, core_one_wakeup, hscan, que_set_next, que_next,
      Function.update_same]

theorem lst_give_chain {lst : lst_t} {c : List Nat} {fuel : Nat} (d : Nat)
    (hc : lst_chain lst c) (hf : c.length < fuel) :
    ∃ r c2, lst_give fuel lst d = some r ∧ lst_chain r.1 c2 := by
  cases hq : lst.queue with
  | cons t q => exact ⟨_, c, lst_give_cons hq fuel d, hc⟩
  | nil =>
    obtain ⟨f1, f2⟩ := lst_give_scan_form d hq hc.1 hf
    by_cases hnew : 2 ≤ d ∧ d - 1 ∉ c
    · obtain ⟨lst2, g1, -, g3⟩ := lst_give_append hq hc hnew.1 hnew.2 hf
      exact ⟨_, _, g1, g3⟩
    · cases hl : c.getLast? with
      | none =>
        have hnil : c = [] := List.getLast?_eq_none_iff.mp hl
        have hd : d - 1 = 0 := by
          by_contra h
          exact hnew ⟨by omega, by rw [hnil]; exact List.not_mem_nil _⟩
        refine ⟨_, [], f1 hnil, ?_, List.nodup_nil⟩
        exact hd
      | some last =>
        by_cases hd : d - 1 = 0
        · refine ⟨_, c, f2 last hl, ?_, hc.2⟩
          apply is_chain_congr c lst.head _ hc.1
          intro n hn
          have hn0 : n ≠ 0 := is_chain_ne_zero c lst.head hc.1 n hn
          show Function.update (Function.update lst.link last (d - 1)) (d - 1) 0 n = lst.link n
          rw [hd, Function.update_noteq hn0]
          by_cases hnl : n = last
          · rw [hnl, Function.update_same]
            exact (is_chain_last_link c lst.head last hc.1 hl).symm
          · rw [Function.update_noteq hnl]
        · have hmem : d - 1 ∈ c := by
            by_contra h
            exact hnew ⟨by omega, h⟩
          obtain ⟨pre, post, hsplit⟩ := List.append_of_mem hmem
          have hnd : (pre ++ (d - 1) :: post).Nodup := hsplit ▸ hc.2
          have hnd2 := List.nodup_middle.mp hnd
          have hnd3 := List.nodup_cons.mp hnd2
          have hdisj := List.disjoint_of_nodup_append hnd
          have hlast2 : last ∈ (d - 1) :: post := by
            apply List.mem_of_getLast?_eq_some
            rw [← List.getLast?_append_cons pre (d - 1) post, ← hsplit]
            exact hl
          refine ⟨_, pre ++ [d - 1], f2 last hl, ?_, ?_⟩
          · apply is_chain_cut post hd (Function.update_same _ _ _) pre lst.head _
              (hsplit ▸ hc.1)
            intro n hn
            have hne : n ≠ d - 1 := fun e => hnd3.1 (List.mem_append_left post (e ▸ hn))
            have hnl : n ≠ last := fun e => hdisj hn (e ▸ hlast2)
            show Function.update (Function.update lst.link last (d - 1)) (d - 1) 0 n = lst.link n
            rw [Function.update_noteq hne, Function.update_noteq hnl]
          · rw [List.nodup_append]
            refine ⟨(List.nodup_append.mp hnd3.2).1, List.nodup_singleton _, ?_⟩
            intro x hx hx2
            rw [List.mem_singleton] at hx2
            exact hnd3.1 (List.mem_append_left post (hx2 ▸ hx))

/-- C14: the chain reachable from the list head is acyclic and ends in the
null pointer after `lst_init`, and stays so under `lst_take`, under the
immediate path (and the suspension) of `lst_waitFor` / `lst_waitUntil`, under
`lst_kill`, and under `lst_give` of every data block, also one that is
already in the chain, the tail scan ending in each case. When the block given
is not already chained (and its link word is not at the null address) and no
receiver is queued, `lst_give` lengthens the chain by exactly one node, placed
at the tail, the earlier nodes unchanged. -/
theorem lst_chain_preserved (link : Nat → Nat) (lst : lst_t) (c : List Nat) (cur : tsk_t)
    (data time fuel d : Nat) (hc : lst_chain lst c) (hf : c.length < fuel) :
    lst_chain (lst_init link) [] ∧
    lst_chain (lst_take lst data).lst c.tail ∧
    lst_chain (lst_waitFor lst cur data time).lst c.tail ∧
    lst_chain (lst_waitUntil lst cur data time).lst c.tail ∧
    lst_chain (lst_kill lst).1 c ∧
    (∃ r c2, lst_give fuel lst d = some r ∧ lst_chain r.1 c2) ∧
    (lst.queue = [] → 2 ≤ d → d - 1 ∉ c →
      ∃ r, lst_give fuel lst d = some r ∧ lst_chain r.1 (c ++ [d - 1])) := by
  have htail : ∀ (l2 : lst_t), l2.link = lst.link →
      l2.head = (if lst.head ≠ 0 then lst.link lst.head else lst.head) → lst_chain l2 c.tail := by
    intro l2 hlink hhead
    obtain ⟨hc1, hc2⟩ := hc
    cases c with
    | nil =>
      have h0 : ¬ lst.head ≠ 0 := fun h => h hc1
      rw [if_neg h0] at hhead
      exact ⟨hhead.trans hc1, List.nodup_nil⟩
    | cons n rest =>
      obtain ⟨h1, h2, h3⟩ := hc1
      have h0 : lst.head ≠ 0 := by rw [h1]; exact h2
      rw [if_pos h0, h1] at hhead
      refine ⟨?_, (List.nodup_cons.mp hc2).2⟩
      show is_chain l2.link l2.head rest
      rw [hlink, hhead]
      exact h3
  refine ⟨⟨rfl, List.nodup_nil⟩, ?_, ?_, ?_, hc, lst_give_chain d hc hf, ?_⟩
  · apply htail
    · simp only [lst_take]; split_ifs <;> rfl
    · simp only [lst_take]; split_ifs <;> rfl
  · apply htail
    · simp only [lst_waitFor, priv_lst_wait]; split_ifs <;> rfl
    · simp only [lst_waitFor, priv_lst_wait]; split_ifs <;> rfl
  · apply htail
    · simp only [lst_waitUntil, priv_lst_wait]; split_ifs <;> rfl
    · simp only [lst_waitUntil, priv_lst_wait]; split_ifs <;> rfl
  · intro hq hd hnew
    obtain ⟨lst2, g1, -, g3⟩ := lst_give_append hq hc hd hnew hf
    exact ⟨_, g1, g3⟩

/-- On the chain of the nodes 3 and 7: a take leaves node 7, a give of the
new block 10 appends node 9, and a give of block 4, already chained as the
first node, ends and leaves a well-formed chain. -/
theorem lst_chain_preserved_witness :
    lst_chain lst_demo_two [3, 7] ∧
    lst_chain (lst_take lst_demo_two 0).lst [7] ∧
    (∃ r, lst_give 3 lst_demo_two 10 = some r ∧ lst_chain r.1 [3, 7, 9]) ∧
    (∃ r c2, lst_give 3 lst_demo_two 4 = some r ∧ lst_chain r.1 c2) :=
  have hc : lst_chain lst_demo_two [3, 7] :=
    ⟨⟨rfl, by decide, rfl, by decide, rfl⟩, by decide⟩
  have h := lst_chain_preserved link_demo lst_demo_two [3, 7] (tsk_demo_B 1) 0 5 3 10 hc
    (by decide)
  have h4 := lst_chain_preserved link_demo lst_demo_two [3, 7] (tsk_demo_B 1) 0 5 3 4 hc
    (by decide)
  ⟨hc, h.2.1, h.2.2.2.2.2.2 rfl (by decide) (by decide), h4.2.2.2.2.2.1⟩

/-! ### C19: wait-queue homogeneity -/

theorem priv_stm_get_fields (n : Nat) : ∀ (stm : stm_t) (dst : Mem) (p : Nat),
    (priv_stm_get stm dst p n).1.limit = stm.limit ∧
    (priv_stm_get stm dst p n).1.queue = stm.queue ∧
    (n ≤ stm.count → (priv_stm_get stm dst p n).1.count = stm.count - n) := by
  induction n with
  | zero => intro stm dst p; exact ⟨rfl, rfl, fun _ => rfl⟩
  | succ n ih =>
    intro stm dst p
    obtain ⟨i1, i2, i3⟩ :=
      ih (priv_stm_getc stm).2 (Function.update dst p (priv_stm_getc stm).1) (p + 1)
    obtain ⟨h1, -, h3, -, -⟩ := priv_stm_getc_fields stm
    simp only [priv_stm_get]
    refine ⟨i1.trans h3, i2.trans h1, ?_⟩
    intro hn
    have hc := @priv_stm_getc_count stm (by omega)
    rw [i3 (by rw [hc]; omega), hc]
    omega

theorem priv_stm_putUpdate_loop_limit (q : List tsk_t) : ∀ (stm : stm_t),
    (priv_stm_putUpdate_loop q stm).1.limit = stm.limit := by
  induction q with
  | nil => intro stm; rfl
  | cons t q ih =>
    intro stm
    by_cases h1 : stm.count > 0
    · by_cases h2 : t.stm_size ≤ stm.count
      · simp only [priv_stm_putUpdate_loop, if_pos h1, if_pos h2]
        exact (ih _).trans (priv_stm_get_fields _ _ _ _).1
      · simp only [priv_stm_putUpdate_loop, if_pos h1, if_neg h2]
        exact ih stm
    · simp only [priv_stm_putUpdate_loop, if_neg h1]

theorem priv_stm_getUpdate_loop_count (q : List tsk_t) : ∀ (stm : stm_t),
    (∀ t ∈ q, t.stm_size ≤ stm.limit) →
    (priv_stm_getUpdate_loop q stm).1.queue ≠ [] → (priv_stm_getUpdate_loop q stm).1.count ≠ 0 := by
  induction q with
  | nil => intro stm _ h; exact absurd rfl h
  | cons t q ih =>
    intro stm hs
    by_cases h1 : (stm.count + t.stm_size) % UINT_MOD ≤ stm.limit
    · simp only [priv_stm_getUpdate_loop, if_pos h1]
      apply ih
      intro u hu
      rw [(priv_stm_put_fields _ _ _ _).1]
      exact hs u (List.mem_cons_of_mem t hu)
    · simp only [priv_stm_getUpdate_loop, if_neg h1]
      intro _ h0
      apply h1
      have h0c : stm.count = 0 := h0
      rw [h0c, Nat.zero_add]
      exact Nat.le_trans (Nat.mod_le _ _) (hs t (List.mem_cons_self t q))

theorem priv_stm_wait_cases (stm : stm_t) (cur : tsk_t) (data : Mem) (size time : Nat)
    (wait : List tsk_t → tsk_t → Nat → List tsk_t) :
    (size = 0 ∨ 0 < stm.count →
      priv_stm_wait stm cur data size time wait = .returned (stm_take stm data size)) ∧
    (0 < size → stm.count = 0 →
      priv_stm_wait stm cur data size time wait =
        .suspended { stm with queue := wait stm.queue { cur with stm_data := data,
                                                                 stm_size := size } time }) := by
  constructor
  · intro h
    by_cases h1 : size > 0
    · have h2 : stm.count > 0 := by omega
      by_cases h3 : size ≤ priv_stm_count stm
      · simp only [priv_stm_wait, stm_take, if_pos h1, if_pos h2, if_pos h3]
      · simp only [priv_stm_wait, stm_take, if_pos h1, if_pos h2, if_neg h3]
    · simp only [priv_stm_wait, stm_take, if_neg h1]
  · intro h1 h2
    have h1g : size > 0 := h1
    have h2g : ¬ stm.count > 0 := by omega
    simp only [priv_stm_wait, if_pos h1g, if_neg h2g]

theorem priv_stm_send_cases (stm : stm_t) (cur : tsk_t) (data : Mem) (size time : Nat)
    (wait : List tsk_t → tsk_t → Nat → List tsk_t) :
    (¬ (size > 0 ∧ size ≤ stm.limit) ∨ size ≤ priv_stm_space stm →
      priv_stm_send stm cur data size time wait = .returned (stm_give stm data size)) ∧
    (size > 0 ∧ size ≤ stm.limit → ¬ size ≤ priv_stm_space stm →
      priv_stm_send stm cur data size time wait =
        .suspended { stm with queue := wait stm.queue { cur with stm_data := data,
                                                                 stm_size := size } time }) := by
  constructor
  · intro h
    by_cases h1 : size > 0 ∧ size ≤ stm.limit
    · have h2 : size ≤ priv_stm_space stm := by
        rcases h with h | h
        · exact absurd h1 h
        · exact h
      simp only [priv_stm_send, stm_give, if_pos h1, if_pos h2]
    · simp only [priv_stm_send, stm_give, if_neg h1]
  · intro h1 h2
    simp only [priv_stm_send, if_pos h1, if_neg h2]

theorem list_drop_nil_of_length {α β : Type} {l : List α} {m : List β} {k : Nat}
    (hlen : l.length = m.length) (hm : m.drop k = []) : l.drop k = [] := by
  have h1 : (m.drop k).length = 0 := by rw [hm]; rfl
  rw [List.length_drop] at h1
  apply List.eq_nil_of_length_eq_zero
  rw [List.length_drop]
  omega

theorem stm_take_homogeneous {stm : stm_t} {kinds : List stm_kind} (data : Mem) (size : Nat)
    (h : stm_homogeneous stm kinds) :
    stm_homogeneous (stm_take stm data size).stm
      (kinds.drop (stm_take stm data size).woken.length) ∧
    ((stm_take stm data size).woken ≠ [] → ∀ k ∈ kinds, k = stm_kind.producer) := by
  obtain ⟨hlen, hcons, hprod⟩ := h
  by_cases h1 : size > 0 ∧ stm.count > 0 ∧ size ≤ priv_stm_count stm
  · obtain ⟨h1a, h1b, h1c⟩ := h1
    obtain ⟨hp1, hp2⟩ := hprod (by omega)
    obtain ⟨f1, f2, -⟩ := priv_stm_get_fields size stm data 0
    have hs : ∀ t ∈ stm.queue, t.stm_size ≤ (priv_stm_get stm data 0 size).1.limit := by
      intro t ht; rw [f1]; exact (hp2 t ht).2
    obtain ⟨u1, u2, -, u4⟩ :=
      priv_stm_getUpdate_loop_queue stm.queue (priv_stm_get stm data 0 size).1
    have u5 := priv_stm_getUpdate_loop_count stm.queue (priv_stm_get stm data 0 size).1 hs
    simp only [stm_take, if_pos h1a, if_pos h1b, if_pos h1c, priv_stm_getUpdate, f2]
    refine ⟨⟨?_, ?_, ?_⟩, fun _ => hp1⟩
    · rw [u1, List.length_drop, List.length_drop, hlen]
    · intro h0 k hk
      have hq : (priv_stm_getUpdate_loop stm.queue (priv_stm_get stm data 0 size).1).1.queue
          = [] := by
        by_contra hne
        exact u5 hne h0
      rw [u1] at hq
      rw [list_drop_nil_of_length hlen hq] at hk
      exact absurd hk (List.not_mem_nil k)
    · intro _
      refine ⟨fun k hk => hp1 k (List.mem_of_mem_drop hk), ?_⟩
      intro t ht
      rw [u1] at ht
      rw [u4, f1]
      exact hp2 t (List.mem_of_mem_drop ht)
  · have hfail : stm_take stm data size =
        { event := E_TIMEOUT, stm := stm, data := data, woken := [] } := by
      unfold stm_take
      split_ifs with a b c
      · exact absurd ⟨a, b, c⟩ h1
      all_goals rfl
    rw [hfail]
    exact ⟨⟨hlen, hcons, hprod⟩, fun hne => absurd rfl hne⟩

theorem stm_give_homogeneous {stm : stm_t} {kinds : List stm_kind} (data : Mem) (size : Nat)
    (h : stm_homogeneous stm kinds) :
    stm_homogeneous (stm_give stm data size).stm
      (kinds.drop (stm_give stm data size).woken.length) ∧
    ((stm_give stm data size).woken ≠ [] → ∀ k ∈ kinds, k = stm_kind.consumer) := by
  obtain ⟨hlen, hcons, hprod⟩ := h
  by_cases h1 : (size > 0 ∧ size ≤ stm.limit) ∧ size ≤ priv_stm_space stm
  · obtain ⟨h1a, h1b⟩ := h1
    have hall : ∀ k ∈ kinds, k = stm_kind.consumer := by
      by_cases h0 : stm.count = 0
      · exact hcons h0
      · cases hq : stm.queue with
        | nil =>
          have hk : kinds = [] := List.eq_nil_of_length_eq_zero (by rw [hlen, hq]; rfl)
          rw [hk]
          intro k hk2
          exact absurd hk2 (List.not_mem_nil k)
        | cons t q =>
          have hsp : priv_stm_space stm = 0 := by
            unfold priv_stm_space
            rw [if_neg h0, hq]
            rfl
          omega
    obtain ⟨-, f2, -, -⟩ := priv_stm_put_fields data size stm 0
    obtain ⟨u1, -, u3, -, -⟩ :=
      priv_stm_putUpdate_loop_queue stm.queue (priv_stm_put stm data 0 size)
    simp only [stm_give, if_pos h1a, if_pos h1b, priv_stm_putUpdate, f2]
    refine ⟨⟨?_, ?_, ?_⟩, fun _ => hall⟩
    · rw [u1, List.length_drop, List.length_drop, hlen]
    · intro _ k hk
      exact hall k (List.mem_of_mem_drop hk)
    · intro h0
      have hq : (priv_stm_putUpdate_loop stm.queue (priv_stm_put stm data 0 size)).1.queue
          = [] := by
        rcases u3 with h | h
        · exact h
        · exact absurd h h0
      have hk := hq
      rw [u1] at hk
      refine ⟨?_, ?_⟩
      · intro k hk2
        rw [list_drop_nil_of_length hlen hk] at hk2
        exact absurd hk2 (List.not_mem_nil k)
      · intro t ht
        rw [hq] at ht
        exact absurd ht (List.not_mem_nil t)
  · have hfail : stm_give stm data size =
        { event := E_TIMEOUT, stm := stm, data := data, woken := [] } := by
      unfold stm_give
      split_ifs with a b
      · exact absurd ⟨a, b⟩ h1
      all_goals rfl
    rw [hfail]
    exact ⟨⟨hlen, hcons, hprod⟩, fun hne => absurd rfl hne⟩

theorem stm_wait_homogeneous {stm : stm_t} {kinds : List stm_kind} (cur : tsk_t) (data : Mem)
    (size time : Nat) (wait : List tsk_t → tsk_t → Nat → List tsk_t)
    (hwait : ∀ q t n, wait q t n = q ++ [t]) (h : stm_homogeneous stm kinds) :
    stm_homogeneous (priv_stm_wait stm cur data size time wait).stm
      ((priv_stm_wait stm cur data size time wait).kinds kinds .consumer) := by
  obtain ⟨c1, c2⟩ := priv_stm_wait_cases stm cur data size time wait
  by_cases hc : size = 0 ∨ 0 < stm.count
  · rw [c1 hc]
    exact (stm_take_homogeneous data size h).1
  · have hs : 0 < size := by omega
    have h0 : stm.count = 0 := by omega
    rw [c2 hs h0, hwait]
    obtain ⟨hlen, hcons, -⟩ := h
    refine ⟨?_, ?_, fun hne => absurd h0 hne⟩
    · simp only [stm_blocking.kinds, stm_blocking.stm, List.length_append, List.length_singleton,
        hlen]
    · intro _ k hk
      simp only [stm_blocking.kinds, List.mem_append, List.mem_singleton] at hk
      rcases hk with hk | hk
      · exact hcons h0 k hk
      · exact hk

theorem stm_send_homogeneous {stm : stm_t} {kinds : List stm_kind} (cur : tsk_t) (data : Mem)
    (size time : Nat) (wait : List tsk_t → tsk_t → Nat → List tsk_t)
    (hwait : ∀ q t n, wait q t n = q ++ [t]) (h : stm_homogeneous stm kinds) :
    stm_homogeneous (priv_stm_send stm cur data size time wait).stm
      ((priv_stm_send stm cur data size time wait).kinds kinds .producer) := by
  obtain ⟨c1, c2⟩ := priv_stm_send_cases stm cur data size time wait
  by_cases hc : ¬ (size > 0 ∧ size ≤ stm.limit) ∨ size ≤ priv_stm_space stm
  · rw [c1 hc]
    exact (stm_give_homogeneous data size h).1
  · have hg : size > 0 ∧ size ≤ stm.limit := by
      by_contra hn
      exact hc (Or.inl hn)
    have hsp : ¬ size ≤ priv_stm_space stm := fun hn => hc (Or.inr hn)
    have h0 : stm.count ≠ 0 := by
      intro h0
      apply hsp
      unfold priv_stm_space
      rw [if_pos h0]
      exact hg.2
    rw [c2 hg hsp, hwait]
    obtain ⟨hlen, -, hprod⟩ := h
    obtain ⟨hp1, hp2⟩ := hprod h0
    refine ⟨?_, fun he => absurd he h0, fun _ => ⟨?_, ?_⟩⟩
    · simp only [stm_blocking.kinds, stm_blocking.stm, List.length_append, List.length_singleton,
        hlen]
    · intro k hk
      simp only [stm_blocking.kinds, List.mem_append, List.mem_singleton] at hk
      rcases hk with hk | hk
      · exact hp1 k hk
      · exact hk
    · intro t ht
      simp only [stm_blocking.stm, List.mem_append, List.mem_singleton] at ht
      rcases ht with ht | ht
      · exact hp2 t ht
      · rw [ht]
        exact ⟨hg.1, hg.2⟩

theorem stm_reachable_homogeneous {stm : stm_t} {kinds : List stm_kind}
    (hr : stm_reachable stm kinds) : stm_homogeneous stm kinds := by
  induction hr with
  | init limit data _ =>
    exact ⟨rfl, fun _ k hk => absurd hk (List.not_mem_nil k), fun h => absurd rfl h⟩
  | take stm kinds data size _ ih => exact (stm_take_homogeneous data size ih).1
  | give stm kinds data size _ ih => exact (stm_give_homogeneous data size ih).1
  | waitFor stm kinds cur data size delay _ ih =>
    exact stm_wait_homogeneous cur data size delay core_tsk_waitFor (fun _ _ _ => rfl) ih
  | waitUntil stm kinds cur data size time _ ih =>
    exact stm_wait_homogeneous cur data size time core_tsk_waitUntil (fun _ _ _ => rfl) ih
  | sendFor stm kinds cur data size delay _ ih =>
    exact stm_send_homogeneous cur data size delay core_tsk_waitFor (fun _ _ _ => rfl) ih
  | sendUntil stm kinds cur data size time _ ih =>
    exact stm_send_homogeneous cur data size time core_tsk_waitUntil (fun _ _ _ => rfl) ih
  | kill stm kinds _ _ =>
    exact ⟨rfl, fun _ k hk => absurd hk (List.not_mem_nil k), fun h => absurd rfl h⟩
  | timeout stm kinds i _ ih =>
    obtain ⟨hlen, hcons, hprod⟩ := ih
    refine ⟨?_, ?_, ?_⟩
    · show (kinds.eraseIdx i).length = (stm.queue.eraseIdx i).length
      rw [List.length_eraseIdx, List.length_eraseIdx, hlen]
    · intro h0 k hk
      exact hcons h0 k (List.mem_of_mem_eraseIdx hk)
    · intro h0
      obtain ⟨hp1, hp2⟩ := hprod h0
      exact ⟨fun k hk => hp1 k (List.mem_of_mem_eraseIdx hk),
        fun t ht => hp2 t (List.mem_of_mem_eraseIdx ht)⟩

theorem stm_blocking_returned_take {stm : stm_t} {cur : tsk_t} {data : Mem} {size time : Nat}
    {wait : List tsk_t → tsk_t → Nat → List tsk_t} {r : stm_result}
    (h : priv_stm_wait stm cur data size time wait = .returned r) :
    r = stm_take stm data size := by
  obtain ⟨c1, c2⟩ := priv_stm_wait_cases stm cur data size time wait
  by_cases hc : size = 0 ∨ 0 < stm.count
  · rw [c1 hc] at h
    exact (stm_blocking.returned.inj h).symm
  · rw [c2 (by omega) (by omega)] at h
    cases h

theorem stm_blocking_returned_give {stm : stm_t} {cur : tsk_t} {data : Mem} {size time : Nat}
    {wait : List tsk_t → tsk_t → Nat → List tsk_t} {r : stm_result}
    (h : priv_stm_send stm cur data size time wait = .returned r) :
    r = stm_give stm data size := by
  obtain ⟨c1, c2⟩ := priv_stm_send_cases stm cur data size time wait
  by_cases hc : ¬ (size > 0 ∧ size ≤ stm.limit) ∨ size ≤ priv_stm_space stm
  · rw [c1 hc] at h
    exact (stm_blocking.returned.inj h).symm
  · have hg : size > 0 ∧ size ≤ stm.limit := by
      by_contra hn
      exact hc (Or.inl hn)
    rw [c2 hg (fun hn => hc (Or.inr hn))] at h
    cases h

/-- C19: in every state reachable from `stm_init` through `stm_take`,
`stm_give`, the blocking receive and send calls, waiters timing out and
`stm_kill`, the wait queue holds consumers only or producers only; if it
holds a consumer then count = 0; if it holds a producer then count > 0 and
every queued request has `0 < size ≤ limit`. Hence whenever the post-read
drain (in `stm_take` or in the immediate path of a blocking receive) wakes a
task, all queued tasks are producers, and whenever the post-write drain (in
`stm_give` or in the immediate path of a blocking send) wakes a task, all
queued tasks are consumers. -/
theorem stm_queue_homogeneous (stm : stm_t) (kinds : List stm_kind)
    (hr : stm_reachable stm kinds) (cur : tsk_t) (data : Mem) (size time : Nat) :
    kinds.length = stm.queue.length ∧
    ((∀ k ∈ kinds, k = stm_kind.consumer) ∨ (∀ k ∈ kinds, k = stm_kind.producer)) ∧
    (stm_kind.consumer ∈ kinds → stm.count = 0) ∧
    (stm_kind.producer ∈ kinds →
      0 < stm.count ∧ ∀ t ∈ stm.queue, 0 < t.stm_size ∧ t.stm_size ≤ stm.limit) ∧
    ((stm_take stm data size).woken ≠ [] → ∀ k ∈ kinds, k = stm_kind.producer) ∧
    ((stm_give stm data size).woken ≠ [] → ∀ k ∈ kinds, k = stm_kind.consumer) ∧
    (∀ r, (stm_waitFor stm cur data size time = .returned r ∨
           stm_waitUntil stm cur data size time = .returned r) →
      r.woken ≠ [] → ∀ k ∈ kinds, k = stm_kind.producer) ∧
    (∀ r, (stm_sendFor stm cur data size time = .returned r ∨
           stm_sendUntil stm cur data size time = .returned r) →
      r.woken ≠ [] → ∀ k ∈ kinds, k = stm_kind.consumer) := by
  have hinv := stm_reachable_homogeneous hr
  have htake := (stm_take_homogeneous data size hinv).2
  have hgive := (stm_give_homogeneous data size hinv).2
  obtain ⟨hlen, hcons, hprod⟩ := hinv
  have hne : stm_kind.consumer ≠ stm_kind.producer := by decide
  refine ⟨hlen, ?_, ?_, ?_, htake, hgive, ?_, ?_⟩
  · by_cases h0 : stm.count = 0
    · exact Or.inl (hcons h0)
    · exact Or.inr (hprod h0).1
  · intro hk
    by_contra h0
    exact hne ((hprod h0).1 _ hk)
  · intro hk
    have h0 : stm.count ≠ 0 := fun h0 => hne (hcons h0 _ hk).symm
    exact ⟨Nat.pos_of_ne_zero h0, (hprod h0).2⟩
  · intro r hret hw
    have hrt : r = stm_take stm data size := by
      rcases hret with h | h
      · exact stm_blocking_returned_take h
      · exact stm_blocking_returned_take h
    rw [hrt] at hw
    exact htake hw
  · intro r hret hw
    have hrt : r = stm_give stm data size := by
      rcases hret with h | h
      · exact stm_blocking_returned_give h
      · exact stm_blocking_returned_give h
    rw [hrt] at hw
    exact hgive hw

/-- The state reached by `stm_init` and a blocking receive of 3 bytes: one
consumer is queued and nothing is buffered. -/
theorem stm_queue_homogeneous_witness :
    stm_reachable stm_demo_deferred [stm_kind.consumer] ∧
    stm_demo_deferred.queue.length = 1 ∧
    stm_demo_deferred.count = 0 :=
  have hr : stm_reachable stm_demo_deferred [stm_kind.consumer] :=
    stm_reachable.waitFor (stm_init 4 (mem_of [])) [] tsk_demo_A (mem_of []) 3 10
      (stm_reachable.init 4 (mem_of []) (by decide))
  have h := stm_queue_homogeneous stm_demo_deferred [stm_kind.consumer] hr tsk_demo_A
    (mem_of []) 1 0
  ⟨hr, h.1.symm, h.2.2.1 (List.mem_singleton.mpr rfl)⟩
